import Mathlib

/-!
Shallow embedding of the strategy-simulation core of the `tws-ibkr-api`
repository (files `strats/mean_reversion_strategy.py`,
`strats/trend_following_strategy.py`, `strats/statistical_arbitrage_strategy.py`,
`strats/market_making_strategy.py`), together with proofs settling the frozen
claims about it.

Modelling conventions:
* a pandas series is a Lean `List`; the row index is the list position
  (the sources immediately `sort_index()`, so the input is taken already ordered);
* float arithmetic is modelled as exact arithmetic over `ℚ` (and `ℝ` where the
  source applies `sqrt`, `log` or `exp`);
* a float `NaN` is modelled as `Option.none`; pandas comparisons against `NaN`
  are `False`, mirrored by option-valued comparisons that are false on `none`;
* pandas `cumsum`/`cummax`/`min` skip `NaN` (`skipna=True` defaults): the
  accumulator ignores `none` entries while the output at a `none` slot is `none`;
* integer quantities (inventory, order size, fill sides) are `ℤ`.
-/

namespace TWS

/-! ### Generic helpers: trailing windows and NaN-propagating arithmetic -/

/-- The trailing window of length `w` ending at index `i` (inclusive), as used by
`Series.rolling(window=w)`: elements `xs[i+1-w .. i]` (fewer near the start). -/
def winSlice (xs : List ℚ) (w i : ℕ) : List ℚ :=
  (xs.take (i + 1)).drop (i + 1 - w)

/-- `rolling(window=w, min_periods=w).mean()` at index `i`. -/
def rollMean (w : ℕ) (xs : List ℚ) (i : ℕ) : Option ℚ :=
  if w ≤ i + 1 ∧ i < xs.length then some ((winSlice xs w i).sum / w) else none

/-- `rolling(window=w, min_periods=w).var(ddof=0)` at index `i`
(population variance; `std(ddof=0)` is its square root). -/
def rollVar (w : ℕ) (xs : List ℚ) (i : ℕ) : Option ℚ :=
  match rollMean w xs i with
  | some m => some (((winSlice xs w i).map (fun x => (x - m) ^ 2)).sum / w)
  | none => none

/-- NaN-propagating comparison `a < b` (false when either side is `NaN`),
for real-valued columns. -/
def oltR (a b : Option ℝ) : Prop :=
  ∃ x y, a = some x ∧ b = some y ∧ x < y

/-- NaN-propagating strict comparison on rational columns, as a `Bool`
(pandas comparisons with `NaN` yield `False`). -/
def oltQ (a b : Option ℚ) : Bool :=
  match a, b with
  | some x, some y => decide (x < y)
  | _, _ => false

/-! ### Market making (`market_making_strategy.py`) -/

/-- Configuration of `market_making_strategy` (prices handled separately). -/
structure MMParams where
  spreadBps : ℚ
  orderSize : ℤ
  invLimit : ℤ
  skewBps : ℚ
  feeBps : ℚ
  allowBoth : Bool

/-- One output row of `market_making_strategy`: the recorded quote, fill,
inventory, cash and equity columns at one bar. -/
structure MMRow where
  bidQuote : ℚ
  askQuote : ℚ
  fillSide : ℤ
  fillQty : ℤ
  inventory : ℤ
  cash : ℚ
  equity : ℚ
deriving Inhabited

/-- The first bar: quotes around the first mid, zero inventory/cash/equity,
no fills (`market_making_strategy.py` lines 68-76). -/
def mmInit (p : MMParams) (mid0 : ℚ) : MMRow :=
  let s := p.spreadBps / 10000
  { bidQuote := mid0 * (1 - s)
    askQuote := mid0 * (1 + s)
    fillSide := 0
    fillQty := 0
    inventory := 0
    cash := 0
    equity := 0 }

/-- Intermediate fill state inside one bar: inventory, cash, fill side, fill
quantity accumulated so far. -/
structure MMFill where
  inv : ℤ
  cash : ℚ
  side : ℤ
  qty : ℤ

/-- Buy leg of the bar loop (`market_making_strategy.py` lines 96-107):
buy at the previous bid if the mid crossed it and inventory is below the limit,
with the quantity clipped to the remaining headroom. -/
def mmBuy (p : MMParams) (prevBid mid : ℚ) (st : MMFill) : MMFill :=
  if mid ≤ prevBid ∧ st.inv < p.invLimit then
    let q := min p.orderSize (p.invLimit - st.inv)
    { inv := st.inv + q
      cash := st.cash - prevBid * (q : ℚ) - prevBid * (q : ℚ) * (p.feeBps / 10000)
      side := st.side + 1
      qty := st.qty + q }
  else st

/-- Sell leg of the bar loop (`market_making_strategy.py` lines 109-121): sell
at the previous ask if the mid crossed it and (post-buy) inventory is above the
negative limit; skipped entirely when the clipped quantity is not positive. -/
def mmSell (p : MMParams) (prevAsk mid : ℚ) (st : MMFill) : MMFill :=
  if (p.allowBoth = true ∨ st.side = 0) ∧ prevAsk ≤ mid ∧ -p.invLimit < st.inv then
    let q := min p.orderSize (st.inv + p.invLimit)
    if 0 < q then
      { inv := st.inv - q
        cash := st.cash + prevAsk * (q : ℚ) - prevAsk * (q : ℚ) * (p.feeBps / 10000)
        side := st.side - 1
        qty := st.qty + q }
    else st
  else st

/-- One iteration of the bar loop (`market_making_strategy.py` lines 78-140):
quote from prior inventory, fill against the previous bar's quotes
(buy side first, then the sell side on the updated inventory), record state. -/
def mmStep (p : MMParams) (prev : MMRow) (mid : ℚ) : MMRow :=
  let s := p.spreadBps / 10000
  let skewFrac : ℚ :=
    if 0 < p.invLimit then (p.skewBps / 10000) * ((prev.inventory : ℚ) / (p.invLimit : ℚ))
    else 0
  let effMid := mid * (1 + skewFrac)
  let bid := effMid * (1 - s)
  let ask := effMid * (1 + s)
  let st :=
    mmSell p prev.askQuote mid
      (mmBuy p prev.bidQuote mid
        { inv := prev.inventory, cash := prev.cash, side := 0, qty := 0 })
  { bidQuote := bid
    askQuote := ask
    fillSide := st.side
    fillQty := st.qty
    inventory := st.inv
    cash := st.cash
    equity := st.cash + (st.inv : ℚ) * mid }

/-- The full run of `market_making_strategy` over a price series: the list of
recorded rows (empty input returns the empty frame, line 58-59). -/
def mmRows (p : MMParams) : List ℚ → List MMRow
  | [] => []
  | m0 :: rest => List.scanl (mmStep p) (mmInit p m0) rest

/-! ### Shared real-valued column machinery (returns, equity, metrics)

These model the common pandas idioms of the directional strategies:
`np.log(price / price.shift(1))`, `cumsum()` (which skips `NaN` but leaves
`NaN` slots `NaN`), `cummax()`, and `min()` over a column with `NaN`s. -/

/-- `np.log(xs[i] / xs[i-1])`: `NaN` at index 0 (shift) and whenever the price
ratio is not positive (`np.log` of a negative float is `NaN`; the source never
hits a zero denominator or zero ratio on the positive price series the
strategies are run on, where the float result would be `±inf`). -/
noncomputable def logRet (xs : List ℚ) (i : ℕ) : Option ℝ :=
  if i = 0 then none
  else
    match xs.get? i, xs.get? (i - 1) with
    | some a, some b => if 0 < a / b then some (Real.log ((a : ℝ) / (b : ℝ))) else none
    | _, _ => none

/-- Sum of the non-`NaN` entries of a column among indices `0..i`
(the accumulator of a skipna `cumsum`). -/
noncomputable def nansumTo (f : ℕ → Option ℝ) (i : ℕ) : ℝ :=
  ∑ j in Finset.range (i + 1), (f j).getD 0

/-- `Series.cumsum()` with pandas defaults: a `NaN` entry stays `NaN` in the
output but is skipped by the running sum. -/
noncomputable def cumsumOpt (f : ℕ → Option ℝ) (i : ℕ) : Option ℝ :=
  if (f i).isSome then some (nansumTo f i) else none

/-- Running maximum of the non-`NaN` entries of a column among indices `0..i`
(the accumulator of a skipna `cummax`); `none` while no entry was defined. -/
noncomputable def runMax (f : ℕ → Option ℝ) : ℕ → Option ℝ
  | 0 => f 0
  | i + 1 =>
    match runMax f i, f (i + 1) with
    | some m, some x => some (max m x)
    | some m, none => some m
    | none, x => x

/-- `Series.cummax()` with pandas defaults: a `NaN` entry stays `NaN` in the
output but the maximum is carried past it. -/
noncomputable def cummaxOpt (f : ℕ → Option ℝ) (i : ℕ) : Option ℝ :=
  if (f i).isSome then runMax f i else none

/-- Drawdown column `equity / equity.cummax() - 1.0`. -/
noncomputable def drawdown (f : ℕ → Option ℝ) (i : ℕ) : Option ℝ :=
  match f i, cummaxOpt f i with
  | some e, some r => some (e / r - 1)
  | _, _ => none

/-- `Series.min()` over indices `0..n-1` with pandas defaults (skips `NaN`,
`NaN` when every entry is `NaN`). -/
noncomputable def minOptTo (g : ℕ → Option ℝ) : ℕ → Option ℝ
  | 0 => none
  | n + 1 =>
    match minOptTo g n, g n with
    | some m, some x => some (min m x)
    | some m, none => some m
    | none, x => x

/-- `df["StratRet"].notna().any()`: the gate before the metrics block. -/
def notnaAny (f : ℕ → Option ℝ) (n : ℕ) : Prop :=
  ∃ i, i < n ∧ (f i).isSome

/-- The `MaxDrawdown` metric: `(EquityCurve / EquityCurve.cummax() - 1).min()`
when some strategy return is defined, `NaN` otherwise (the `else` branch of the
metrics block). -/
noncomputable def maxDrawdown (sret eq : ℕ → Option ℝ) (n : ℕ) : Option ℝ :=
  open Classical in
  if notnaAny sret n then minOptTo (drawdown eq) n else none

/-- The `TotalReturn` metric: `EquityCurve.iloc[-1] - 1` when some strategy
return is defined, `NaN` otherwise. -/
noncomputable def totalReturn (sret eq : ℕ → Option ℝ) (n : ℕ) : Option ℝ :=
  open Classical in
  if notnaAny sret n then (eq (n - 1)).map (fun e => e - 1) else none

end TWS

namespace TWS.MR

/-! ### Mean reversion (`mean_reversion_strategy.py`) -/

/-- `df["SMA"]`: rolling mean of the price over `window` (line 47). -/
def sma (w : ℕ) (xs : List ℚ) (i : ℕ) : Option ℚ :=
  rollMean w xs i

/-- `df["StdDev"]`: rolling population standard deviation (`std(ddof=0)`,
line 48). -/
noncomputable def stdDev (w : ℕ) (xs : List ℚ) (i : ℕ) : Option ℝ :=
  (rollVar w xs i).map (fun v => Real.sqrt (v : ℝ))

/-- `df["UpperBand"] = SMA + num_std * StdDev` (line 50). -/
noncomputable def upperBand (w : ℕ) (k : ℚ) (xs : List ℚ) (i : ℕ) : Option ℝ :=
  match sma w xs i, stdDev w xs i with
  | some m, some s => some ((m : ℝ) + (k : ℝ) * s)
  | _, _ => none

/-- `df["LowerBand"] = SMA - num_std * StdDev` (line 51). -/
noncomputable def lowerBand (w : ℕ) (k : ℚ) (xs : List ℚ) (i : ℕ) : Option ℝ :=
  match sma w xs i, stdDev w xs i with
  | some m, some s => some ((m : ℝ) - (k : ℝ) * s)
  | _, _ => none

/-- The price column as a real-valued option column. -/
def priceR (xs : List ℚ) (i : ℕ) : Option ℝ :=
  (xs.get? i).map (fun q => (q : ℝ))

/-- `df["Z"] = (price - SMA) / StdDev` (line 54).  A zero standard deviation
yields `none`: in the source the window is then constant, so the numerator is
also zero and the float division is `0.0/0.0 = NaN`. -/
noncomputable def zScore (w : ℕ) (xs : List ℚ) (i : ℕ) : Option ℝ :=
  open Classical in
  match xs.get? i, sma w xs i, stdDev w xs i with
  | some px, some m, some s => if s = 0 then none else some (((px : ℝ) - (m : ℝ)) / s)
  | _, _, _ => none

/-- `df["Signal"]` (lines 60-62): default 0, then 1 where `price < LowerBand`,
then -1 where `price > UpperBand` (the later assignment wins where both hold);
comparisons against `NaN` bands are false. -/
noncomputable def signal (w : ℕ) (k : ℚ) (xs : List ℚ) (i : ℕ) : ℤ :=
  open Classical in
  if oltR (upperBand w k xs i) (priceR xs i) then -1
  else if oltR (priceR xs i) (lowerBand w k xs i) then 1
  else 0

/-- `df["Position"] = df["Signal"].shift(1).fillna(0)` (line 65). -/
noncomputable def position (w : ℕ) (k : ℚ) (xs : List ℚ) (i : ℕ) : ℤ :=
  if i = 0 then 0 else signal w k xs (i - 1)

end TWS.MR

namespace TWS.TF

/-! ### Trend following (`trend_following_strategy.py`) -/

/-- `ewm(span=w, adjust=False)` smoothing factor `α = 2 / (w + 1)`. -/
def emaAlpha (span : ℕ) : ℚ :=
  2 / ((span : ℚ) + 1)

/-- Value at the last element of the `adjust=False` exponential recursion
`y₀ = x₀, yᵢ = (1-α)·yᵢ₋₁ + α·xᵢ` run over a whole list. -/
def emaList (a : ℚ) : List ℚ → ℚ
  | [] => 0
  | x :: rest => rest.foldl (fun acc y => (1 - a) * acc + a * y) x

/-- `ewm(span=w, adjust=False, min_periods=w).mean()` at index `i`: the
recursion runs from the start of the series, but the output is `NaN` until `w`
observations have been seen (lines 36-37). -/
def ema (span : ℕ) (xs : List ℚ) (i : ℕ) : Option ℚ :=
  if span ≤ i + 1 ∧ i < xs.length then some (emaList (emaAlpha span) (xs.take (i + 1))) else none

/-- `df["MA_Short"]`: EMA or SMA of the price over `short_window`, per the
(already validated) `avg` option. -/
def maShort (avgKind : String) (short : ℕ) (xs : List ℚ) (i : ℕ) : Option ℚ :=
  if avgKind.toUpper = "EMA" then ema short xs i else rollMean short xs i

/-- `df["MA_Long"]`: EMA or SMA of the price over `long_window`. -/
def maLong (avgKind : String) (lng : ℕ) (xs : List ℚ) (i : ℕ) : Option ℚ :=
  if avgKind.toUpper = "EMA" then ema lng xs i else rollMean lng xs i

/-- `rel = (MA_Short > MA_Long).astype(int)` (line 45); a comparison against a
`NaN` moving average is `False`. -/
def rel (avgKind : String) (short lng : ℕ) (xs : List ℚ) (i : ℕ) : Bool :=
  oltQ (maLong avgKind lng xs i) (maShort avgKind short xs i)

/-- `cross = rel.diff().fillna(0)` (line 46): `+1` golden cross, `-1` death
cross, `0` at index 0. -/
def cross (avgKind : String) (short lng : ℕ) (xs : List ℚ) (i : ℕ) : ℤ :=
  if i = 0 then 0
  else (if rel avgKind short lng xs i then 1 else 0) -
    (if rel avgKind short lng xs (i - 1) then 1 else 0)

/-- `df["Signal"]` (lines 49-55): `+1` at a golden cross; at a death cross `-1`
if shorting is allowed, else `0`; `0` elsewhere. -/
def sigTF (avgKind : String) (short lng : ℕ) (allowShort : Bool) (xs : List ℚ) (i : ℕ) : ℤ :=
  if cross avgKind short lng xs i = 1 then 1
  else if cross avgKind short lng xs i = -1 then (if allowShort then -1 else 0)
  else 0

/-- One iteration of the position state machine (lines 60-68). -/
def posStep (allowShort : Bool) (prev sg cr : ℤ) : ℤ :=
  if sg = 1 then 1
  else if sg = -1 then -1
  else if sg = 0 ∧ cr = -1 ∧ allowShort = false then 0
  else prev

/-- The state machine output at bar `i` (the pre-shift `df["Position"]`,
lines 58-68), starting from a flat position. -/
def posRaw (avgKind : String) (short lng : ℕ) (allowShort : Bool) (xs : List ℚ) : ℕ → ℤ
  | 0 => posStep allowShort 0 (sigTF avgKind short lng allowShort xs 0)
      (cross avgKind short lng xs 0)
  | i + 1 => posStep allowShort (posRaw avgKind short lng allowShort xs i)
      (sigTF avgKind short lng allowShort xs (i + 1)) (cross avgKind short lng xs (i + 1))

/-- `df["Position"] = df["Position"].shift(1).fillna(0)` (line 71): next-bar
execution. -/
def position (avgKind : String) (short lng : ℕ) (allowShort : Bool) (xs : List ℚ) (i : ℕ) : ℤ :=
  if i = 0 then 0 else posRaw avgKind short lng allowShort xs (i - 1)

/-- The previous bar's position (0 before the first bar), the reference value
of `df["Position"].diff().fillna(df["Position"])`. -/
def prevPosition (avgKind : String) (short lng : ℕ) (allowShort : Bool) (xs : List ℚ)
    (i : ℕ) : ℤ :=
  if i = 0 then 0 else position avgKind short lng allowShort xs (i - 1)

/-- `changes = df["Position"].diff().fillna(df["Position"]).ne(0)` (line 77). -/
def chg (avgKind : String) (short lng : ℕ) (allowShort : Bool) (xs : List ℚ) (i : ℕ) : Bool :=
  position avgKind short lng allowShort xs i ≠ prevPosition avgKind short lng allowShort xs i

/-- `df["Costs"] = -cost_per_trade * changes` (line 78). -/
def costs (c : ℚ) (avgKind : String) (short lng : ℕ) (allowShort : Bool) (xs : List ℚ)
    (i : ℕ) : ℚ :=
  -c * (if chg avgKind short lng allowShort xs i then 1 else 0)

/-- `df["StratRet"] = Position * MarketRet + Costs` (lines 74-79); `NaN`
exactly where the market return is `NaN`. -/
noncomputable def stratRet (c : ℚ) (avgKind : String) (short lng : ℕ) (allowShort : Bool)
    (xs : List ℚ) (i : ℕ) : Option ℝ :=
  (logRet xs i).map (fun r =>
    (position avgKind short lng allowShort xs i : ℝ) * r +
      (costs c avgKind short lng allowShort xs i : ℝ))

/-- `df["EquityCurve"] = np.exp(df["StratRet"].cumsum())` (line 81). -/
noncomputable def equityCurve (c : ℚ) (avgKind : String) (short lng : ℕ) (allowShort : Bool)
    (xs : List ℚ) (i : ℕ) : Option ℝ :=
  (cumsumOpt (stratRet c avgKind short lng allowShort xs) i).map Real.exp

/-- The `TotalReturn` metric of `trend_following_cross` (lines 84-95). -/
noncomputable def totalRet (c : ℚ) (avgKind : String) (short lng : ℕ) (allowShort : Bool)
    (xs : List ℚ) : Option ℝ :=
  totalReturn (stratRet c avgKind short lng allowShort xs)
    (equityCurve c avgKind short lng allowShort xs) xs.length

/-- The `MaxDrawdown` metric of `trend_following_cross` (lines 90-92). -/
noncomputable def mdd (c : ℚ) (avgKind : String) (short lng : ℕ) (allowShort : Bool)
    (xs : List ℚ) : Option ℝ :=
  maxDrawdown (stratRet c avgKind short lng allowShort xs)
    (equityCurve c avgKind short lng allowShort xs) xs.length

end TWS.TF

namespace TWS.SA

/-! ### Statistical arbitrage pairs (`statistical_arbitrage_strategy.py`)

The input series is a list of `(y, x)` price pairs (`asset_y`, `asset_x`). -/

/-- `hist = df.iloc[i - window:i]` (line 50): the `window` rows strictly before
row `i`.  `dropna()` is the identity here since the embedded input carries no
missing values. -/
def histSlice (ps : List (ℚ × ℚ)) (w i : ℕ) : List (ℚ × ℚ) :=
  (ps.take i).drop (i - w)

/-- `sm.OLS(y, add_constant(x)).fit().params` (lines 53-56): the least-squares
`(alpha, beta)` of `y = alpha + beta*x`.  When the regressor is constant the
design matrix is rank deficient and statsmodels falls back to the
pseudoinverse, i.e. the minimum-norm solution `(ȳ, ȳ·x̄)/(1 + x̄²)`. -/
def olsAlphaBeta (h : List (ℚ × ℚ)) : ℚ × ℚ :=
  let n : ℚ := (h.length : ℚ)
  let xbar := (h.map Prod.snd).sum / n
  let ybar := (h.map Prod.fst).sum / n
  let sxx := (h.map (fun r => (r.2 - xbar) ^ 2)).sum
  let sxy := (h.map (fun r => (r.2 - xbar) * (r.1 - ybar))).sum
  if sxx = 0 then (ybar / (1 + xbar ^ 2), ybar * xbar / (1 + xbar ^ 2))
  else (ybar - (sxy / sxx) * xbar, sxy / sxx)

/-- `df["Alpha"]` (lines 46-58): defined from index `window` on (`hist` always
holds `window` complete rows, so the `len(hist) < window//2` skip never fires
on a NaN-free input). -/
def alphaCol (w : ℕ) (ps : List (ℚ × ℚ)) (i : ℕ) : Option ℚ :=
  if w ≤ i ∧ i < ps.length then some (olsAlphaBeta (histSlice ps w i)).1 else none

/-- `df["Beta"]` (lines 46-58). -/
def betaCol (w : ℕ) (ps : List (ℚ × ℚ)) (i : ℕ) : Option ℚ :=
  if w ≤ i ∧ i < ps.length then some (olsAlphaBeta (histSlice ps w i)).2 else none

/-- `df["Spread"] = y_i - (alpha + beta * x_i)` (line 59). -/
def spread (w : ℕ) (ps : List (ℚ × ℚ)) (i : ℕ) : Option ℚ :=
  match ps.get? i, alphaCol w ps i, betaCol w ps i with
  | some r, some a, some b => some (r.1 - (a + b * r.2))
  | _, _, _ => none

/-- The indices of the trailing window of length `w` ending at `i`. -/
def winIdx (w i : ℕ) : List ℕ :=
  (List.range (i + 1)).drop (i + 1 - w)

/-- `rolling(window=w, min_periods=w).mean()` over an option-valued column:
pandas counts the non-`NaN` entries of the window against `min_periods` and
averages them. -/
def rollMeanOpt (w : ℕ) (f : ℕ → Option ℚ) (i : ℕ) : Option ℚ :=
  let vals := (winIdx w i).filterMap f
  if w ≤ vals.length then some (vals.sum / (vals.length : ℚ)) else none

/-- `rolling(window=w, min_periods=w).var(ddof=0)` over an option-valued
column. -/
def rollVarOpt (w : ℕ) (f : ℕ → Option ℚ) (i : ℕ) : Option ℚ :=
  let vals := (winIdx w i).filterMap f
  if w ≤ vals.length then
    some ((vals.map (fun x => (x - vals.sum / (vals.length : ℚ)) ^ 2)).sum / (vals.length : ℚ))
  else none

/-- `df["MeanSpread"]` (line 62). -/
def meanSpread (w : ℕ) (ps : List (ℚ × ℚ)) (i : ℕ) : Option ℚ :=
  rollMeanOpt w (spread w ps) i

/-- `df["StdSpread"]` (line 63), `std(ddof=0)`. -/
noncomputable def stdSpread (w : ℕ) (ps : List (ℚ × ℚ)) (i : ℕ) : Option ℝ :=
  (rollVarOpt w (spread w ps) i).map (fun v => Real.sqrt (v : ℝ))

/-- `df["Z"] = (Spread - MeanSpread) / StdSpread` (line 64).  A zero standard
deviation yields `none`: the window is then constant and contains the current
spread, so the numerator is zero and the float division is `0.0/0.0 = NaN`. -/
noncomputable def zScore (w : ℕ) (ps : List (ℚ × ℚ)) (i : ℕ) : Option ℝ :=
  open Classical in
  match spread w ps i, meanSpread w ps i, stdSpread w ps i with
  | some s, some m, some sd => if sd = 0 then none else some (((s - m : ℚ) : ℝ) / sd)
  | _, _, _ => none

/-- `df["Signal"]` as a pointwise function of the z-score (lines 67-70):
default 0; `+1` where `Z ≤ -entry_z`; `-1` where `Z ≥ entry_z` (overriding a
previous `+1` where both apply); finally `0` where `|Z| ≤ exit_z`. -/
noncomputable def sigOfZ (entryZ exitZ : ℚ) (z : ℝ) : ℤ :=
  open Classical in
  if |z| ≤ (exitZ : ℝ) then 0
  else if (entryZ : ℝ) ≤ z then -1
  else if z ≤ -(entryZ : ℝ) then 1
  else 0

/-- One iteration of the pairs position state machine (lines 75-92), acting on
the `(pos, held)` pair carried across bars: a `NaN` z-score records the carried
position unchanged; otherwise the holding-period stop (when configured) forces
flat first, then the entry/exit signal is applied. -/
noncomputable def saStep (entryZ exitZ : ℚ) (maxH : Option ℕ) (z : Option ℝ)
    (st : ℤ × ℕ) : ℤ × ℕ :=
  open Classical in
  match z with
  | none => st
  | some zv =>
    let st1 :=
      match maxH with
      | some m => if st.1 ≠ 0 ∧ m ≤ st.2 then ((0 : ℤ), (0 : ℕ)) else st
      | none => st
    let sg := sigOfZ entryZ exitZ zv
    if sg = 0 ∧ |zv| ≤ (exitZ : ℝ) then (0, 0)
    else if sg = 1 then (if st1.1 ≠ 1 then (1, 0) else (1, st1.2 + 1))
    else if sg = -1 then (if st1.1 ≠ -1 then (-1, 0) else (-1, st1.2 + 1))
    else st1

/-- The machine state after processing bars `0..i` (the pre-shift
`df["Position"]` is its first component), starting flat with a zero
holding-period counter. -/
noncomputable def saStates (entryZ exitZ : ℚ) (maxH : Option ℕ) (z : ℕ → Option ℝ) :
    ℕ → ℤ × ℕ
  | 0 => saStep entryZ exitZ maxH (z 0) (0, 0)
  | i + 1 => saStep entryZ exitZ maxH (z (i + 1)) (saStates entryZ exitZ maxH z i)

/-- `df["Position"] = df["Position"].shift(1).fillna(0)` (line 95): next-bar
execution of the machine output. -/
noncomputable def position (entryZ exitZ : ℚ) (maxH : Option ℕ) (w : ℕ)
    (ps : List (ℚ × ℚ)) (i : ℕ) : ℤ :=
  if i = 0 then 0 else (saStates entryZ exitZ maxH (zScore w ps) (i - 1)).1

/-- The previous bar's (shifted) position, 0 before the first bar: the
reference value of both `diff().fillna(Position)` and `shift(1).fillna(0)`
in the cost block (lines 105-106). -/
noncomputable def prevPosition (entryZ exitZ : ℚ) (maxH : Option ℕ) (w : ℕ)
    (ps : List (ℚ × ℚ)) (i : ℕ) : ℤ :=
  if i = 0 then 0 else position entryZ exitZ maxH w ps (i - 1)

/-- `legs = 2 * ((pos_change > 0) + flip)` (lines 105-108): two legs per
position change plus two extra legs on a direct sign flip. -/
noncomputable def legs (entryZ exitZ : ℚ) (maxH : Option ℕ) (w : ℕ)
    (ps : List (ℚ × ℚ)) (i : ℕ) : ℕ :=
  open Classical in
  2 * ((if position entryZ exitZ maxH w ps i ≠ prevPosition entryZ exitZ maxH w ps i
        then 1 else 0) +
    (if prevPosition entryZ exitZ maxH w ps i * position entryZ exitZ maxH w ps i < 0
        then 1 else 0))

/-- `df["Costs"] = -cost_per_leg * legs` (line 109). -/
noncomputable def costsSA (cpl : ℚ) (entryZ exitZ : ℚ) (maxH : Option ℕ) (w : ℕ)
    (ps : List (ℚ × ℚ)) (i : ℕ) : ℚ :=
  -cpl * (legs entryZ exitZ maxH w ps i : ℚ)

/-- `df["RetY"]` (line 98). -/
noncomputable def retY (ps : List (ℚ × ℚ)) (i : ℕ) : Option ℝ :=
  logRet (ps.map Prod.fst) i

/-- `df["RetX"]` (line 99). -/
noncomputable def retX (ps : List (ℚ × ℚ)) (i : ℕ) : Option ℝ :=
  logRet (ps.map Prod.snd) i

/-- `df["BetaLag"] = df["Beta"].shift(1)` (line 100). -/
def betaLag (w : ℕ) (ps : List (ℚ × ℚ)) (i : ℕ) : Option ℚ :=
  if i = 0 then none else betaCol w ps (i - 1)

/-- `df["StratRet"] = Position * (RetY - BetaLag * RetX) + Costs`
(lines 102-111); `NaN` wherever a return or the lagged beta is `NaN`. -/
noncomputable def stratRet (cpl entryZ exitZ : ℚ) (maxH : Option ℕ) (w : ℕ)
    (ps : List (ℚ × ℚ)) (i : ℕ) : Option ℝ :=
  match retY ps i, retX ps i, betaLag w ps i with
  | some ry, some rx, some b =>
    some ((position entryZ exitZ maxH w ps i : ℝ) * (ry - (b : ℝ) * rx) +
      (costsSA cpl entryZ exitZ maxH w ps i : ℝ))
  | _, _, _ => none

/-- `df["EquityCurve"] = np.exp(df["StratRet"].cumsum())` (line 112). -/
noncomputable def equityCurve (cpl entryZ exitZ : ℚ) (maxH : Option ℕ) (w : ℕ)
    (ps : List (ℚ × ℚ)) (i : ℕ) : Option ℝ :=
  (cumsumOpt (stratRet cpl entryZ exitZ maxH w ps) i).map Real.exp

/-- The `MaxDrawdown` metric of `statistical_arbitrage_pairs`
(lines 121-123). -/
noncomputable def mdd (cpl entryZ exitZ : ℚ) (maxH : Option ℕ) (w : ℕ)
    (ps : List (ℚ × ℚ)) : Option ℝ :=
  maxDrawdown (stratRet cpl entryZ exitZ maxH w ps)
    (equityCurve cpl entryZ exitZ maxH w ps) ps.length

end TWS.SA

namespace TWS

/-! ### Run wrappers and configuration errors

The sources raise `KeyError` for a missing price column and `ValueError` for
bad windows or an unknown moving-average kind; the specification groups both
as `ConfigurationError`.  Each wrapper mirrors its source's checks in source
order and otherwise returns the computed columns. -/

/-- The abstract `ConfigurationError` of the specification. -/
inductive ConfigError
  | missingColumn
  | badWindows
  | badAvgKind
deriving DecidableEq

/-- `mean_reversion_strategy` (line 37-38): raises exactly when the price
column is absent. -/
noncomputable def mrRun (cols : List String) (priceCol : String) (w : ℕ) (k : ℚ)
    (xs : List ℚ) : Except ConfigError (List ℤ) :=
  if priceCol ∉ cols then .error .missingColumn
  else .ok ((List.range xs.length).map (MR.position w k xs))

/-- `trend_following_cross` (lines 29-42): missing column, then
`short_window >= long_window`, then unknown moving-average kind (after
`.upper()` normalization). -/
noncomputable def tfRun (cols : List String) (priceCol : String) (short lng : ℕ)
    (avgKind : String) (allowShort : Bool) (c : ℚ) (xs : List ℚ) :
    Except ConfigError (List ℤ × Option ℝ) :=
  if priceCol ∉ cols then .error .missingColumn
  else if lng ≤ short then .error .badWindows
  else if avgKind.toUpper ≠ "EMA" ∧ avgKind.toUpper ≠ "SMA" then .error .badAvgKind
  else .ok ((List.range xs.length).map (TF.position avgKind short lng allowShort xs),
    TF.totalRet c avgKind short lng allowShort xs)

/-- `statistical_arbitrage_pairs` (lines 43-44): raises exactly when either
asset column is absent. -/
noncomputable def saRun (cols : List String) (assetY assetX : String) (w : ℕ)
    (entryZ exitZ cpl : ℚ) (maxH : Option ℕ) (ps : List (ℚ × ℚ)) :
    Except ConfigError (List ℤ × Option ℝ) :=
  if assetY ∉ cols ∨ assetX ∉ cols then .error .missingColumn
  else .ok ((List.range ps.length).map (SA.position entryZ exitZ maxH w ps),
    SA.mdd cpl entryZ exitZ maxH w ps)

/-- `market_making_strategy` (lines 36-37): raises exactly when the price
column is absent; a non-positive inventory limit is not checked — the skew
term is silently disabled instead (line 82). -/
def mmRun (cols : List String) (priceCol : String) (p : MMParams) (xs : List ℚ) :
    Except ConfigError (List MMRow) :=
  if priceCol ∉ cols then .error .missingColumn
  else .ok (mmRows p xs)

end TWS

namespace TWS

/-! ### Lemmas: market-making inventory bound -/

theorem mmBuy_inv_bound (p : MMParams) (prevBid mid : ℚ) (st : MMFill)
    (hos : 0 ≤ p.orderSize) (h : |st.inv| ≤ p.invLimit) :
    |(mmBuy p prevBid mid st).inv| ≤ p.invLimit := by
  rw [abs_le] at h ⊢
  unfold mmBuy
  split
  · dsimp only; omega
  · omega

theorem mmSell_inv_bound (p : MMParams) (prevAsk mid : ℚ) (st : MMFill)
    (h : |st.inv| ≤ p.invLimit) :
    |(mmSell p prevAsk mid st).inv| ≤ p.invLimit := by
  rw [abs_le] at h ⊢
  unfold mmSell
  split
  · dsimp only
    split
    · dsimp only; omega
    · omega
  · omega

theorem mmStep_inventory_bound (p : MMParams) (prev : MMRow) (mid : ℚ)
    (hos : 0 ≤ p.orderSize) (hprev : |prev.inventory| ≤ p.invLimit) :
    |(mmStep p prev mid).inventory| ≤ p.invLimit := by
  show |(mmSell p _ _ (mmBuy p _ _ _)).inv| ≤ p.invLimit
  exact mmSell_inv_bound p _ _ _ (mmBuy_inv_bound p _ _ _ hos hprev)

theorem mmScanl_inventory_bound (p : MMParams) (hos : 0 ≤ p.orderSize)
    (init : MMRow) (hinit : |init.inventory| ≤ p.invLimit) (xs : List ℚ) :
    ∀ r ∈ List.scanl (mmStep p) init xs, |r.inventory| ≤ p.invLimit := by
  induction xs generalizing init with
  | nil =>
    intro r hr
    simp only [List.scanl_nil, List.mem_singleton] at hr
    simpa [hr] using hinit
  | cons a l ih =>
    intro r hr
    rw [List.scanl_cons] at hr
    simp only [List.singleton_append, List.mem_cons] at hr
    rcases hr with rfl | hr
    · exact hinit
    · exact ih (mmStep p init a) (mmStep_inventory_bound p init a hos hinit) r hr

theorem mmRows_inventory_bound (p : MMParams) (hL : 0 < p.invLimit)
    (hos : 0 ≤ p.orderSize) (xs : List ℚ) :
    ∀ r ∈ mmRows p xs, |r.inventory| ≤ p.invLimit := by
  cases xs with
  | nil => intro r hr; simp [mmRows] at hr
  | cons m0 rest =>
    intro r hr
    refine mmScanl_inventory_bound p hos (mmInit p m0) ?_ rest r hr
    simp [mmInit]
    omega

/-! ### Lemmas: truncating the input series does not change earlier rows

Every indicator/signal/position column at index `i` reads the input only at
indices `≤ i`, so replacing the series with its prefix of length `t + 1`
leaves all columns at indices `≤ t` unchanged. -/

theorem winSlice_take (xs : List ℚ) (w t i : ℕ) (hi : i ≤ t) :
    winSlice (xs.take (t + 1)) w i = winSlice xs w i := by
  unfold winSlice
  rw [List.take_take, min_eq_left (by omega)]

theorem rollMean_take (xs : List ℚ) (w t i : ℕ) (ht : t < xs.length) (hi : i ≤ t) :
    rollMean w (xs.take (t + 1)) i = rollMean w xs i := by
  unfold rollMean
  rw [winSlice_take xs w t i hi, List.length_take]
  exact if_congr (by omega) rfl rfl

theorem rollVar_take (xs : List ℚ) (w t i : ℕ) (ht : t < xs.length) (hi : i ≤ t) :
    rollVar w (xs.take (t + 1)) i = rollVar w xs i := by
  unfold rollVar
  rw [rollMean_take xs w t i ht hi, winSlice_take xs w t i hi]

theorem get?_take_le (xs : List ℚ) (t i : ℕ) (hi : i ≤ t) :
    (xs.take (t + 1)).get? i = xs.get? i := by
  simp only [List.get?_eq_getElem?]
  exact List.getElem?_take_of_lt (by omega)

end TWS

namespace TWS.MR

theorem sma_take (w : ℕ) (xs : List ℚ) (t i : ℕ) (ht : t < xs.length) (hi : i ≤ t) :
    sma w (xs.take (t + 1)) i = sma w xs i :=
  rollMean_take xs w t i ht hi

theorem stdDev_take (w : ℕ) (xs : List ℚ) (t i : ℕ) (ht : t < xs.length) (hi : i ≤ t) :
    stdDev w (xs.take (t + 1)) i = stdDev w xs i := by
  unfold stdDev
  rw [rollVar_take xs w t i ht hi]

theorem priceR_take (xs : List ℚ) (t i : ℕ) (hi : i ≤ t) :
    priceR (xs.take (t + 1)) i = priceR xs i := by
  unfold priceR
  rw [get?_take_le xs t i hi]

theorem upperBand_take (w : ℕ) (k : ℚ) (xs : List ℚ) (t i : ℕ) (ht : t < xs.length)
    (hi : i ≤ t) : upperBand w k (xs.take (t + 1)) i = upperBand w k xs i := by
  unfold upperBand
  rw [sma_take w xs t i ht hi, stdDev_take w xs t i ht hi]

theorem lowerBand_take (w : ℕ) (k : ℚ) (xs : List ℚ) (t i : ℕ) (ht : t < xs.length)
    (hi : i ≤ t) : lowerBand w k (xs.take (t + 1)) i = lowerBand w k xs i := by
  unfold lowerBand
  rw [sma_take w xs t i ht hi, stdDev_take w xs t i ht hi]

theorem signal_take (w : ℕ) (k : ℚ) (xs : List ℚ) (t i : ℕ) (ht : t < xs.length)
    (hi : i ≤ t) : signal w k (xs.take (t + 1)) i = signal w k xs i := by
  unfold signal
  rw [upperBand_take w k xs t i ht hi, lowerBand_take w k xs t i ht hi,
    priceR_take xs t i hi]

theorem mrPosition_take (w : ℕ) (k : ℚ) (xs : List ℚ) (t i : ℕ) (ht : t < xs.length)
    (hi : i ≤ t) : position w k (xs.take (t + 1)) i = position w k xs i := by
  unfold position
  rcases Nat.eq_zero_or_pos i with h0 | h0
  · simp [h0]
  · rw [if_neg (by omega), if_neg (by omega),
      signal_take w k xs t (i - 1) ht (by omega)]

end TWS.MR

namespace TWS.TF

theorem ema_take (span : ℕ) (xs : List ℚ) (t i : ℕ) (ht : t < xs.length) (hi : i ≤ t) :
    ema span (xs.take (t + 1)) i = ema span xs i := by
  unfold ema
  rw [List.take_take, min_eq_left (by omega), List.length_take]
  exact if_congr (by omega) rfl rfl

theorem maShort_take (avgKind : String) (short : ℕ) (xs : List ℚ) (t i : ℕ)
    (ht : t < xs.length) (hi : i ≤ t) :
    maShort avgKind short (xs.take (t + 1)) i = maShort avgKind short xs i := by
  unfold maShort
  rw [ema_take short xs t i ht hi, rollMean_take xs short t i ht hi]

theorem maLong_take (avgKind : String) (lng : ℕ) (xs : List ℚ) (t i : ℕ)
    (ht : t < xs.length) (hi : i ≤ t) :
    maLong avgKind lng (xs.take (t + 1)) i = maLong avgKind lng xs i := by
  unfold maLong
  rw [ema_take lng xs t i ht hi, rollMean_take xs lng t i ht hi]

theorem rel_take (avgKind : String) (short lng : ℕ) (xs : List ℚ) (t i : ℕ)
    (ht : t < xs.length) (hi : i ≤ t) :
    rel avgKind short lng (xs.take (t + 1)) i = rel avgKind short lng xs i := by
  unfold rel
  rw [maShort_take avgKind short xs t i ht hi, maLong_take avgKind lng xs t i ht hi]

theorem cross_take (avgKind : String) (short lng : ℕ) (xs : List ℚ) (t i : ℕ)
    (ht : t < xs.length) (hi : i ≤ t) :
    cross avgKind short lng (xs.take (t + 1)) i = cross avgKind short lng xs i := by
  unfold cross
  rcases eq_or_ne i 0 with h0 | h0
  · simp [h0]
  · rw [if_neg h0, if_neg h0, rel_take avgKind short lng xs t i ht hi,
      rel_take avgKind short lng xs t (i - 1) ht (by omega)]

theorem sigTF_take (avgKind : String) (short lng : ℕ) (allowShort : Bool) (xs : List ℚ)
    (t i : ℕ) (ht : t < xs.length) (hi : i ≤ t) :
    sigTF avgKind short lng allowShort (xs.take (t + 1)) i =
      sigTF avgKind short lng allowShort xs i := by
  unfold sigTF
  rw [cross_take avgKind short lng xs t i ht hi]

theorem posRaw_take (avgKind : String) (short lng : ℕ) (allowShort : Bool) (xs : List ℚ)
    (t : ℕ) (ht : t < xs.length) :
    ∀ i, i ≤ t → posRaw avgKind short lng allowShort (xs.take (t + 1)) i =
      posRaw avgKind short lng allowShort xs i := by
  intro i
  induction i with
  | zero =>
    intro _
    unfold posRaw
    rw [sigTF_take avgKind short lng allowShort xs t 0 ht (by omega),
      cross_take avgKind short lng xs t 0 ht (by omega)]
  | succ n ih =>
    intro hn
    unfold posRaw
    rw [ih (by omega), sigTF_take avgKind short lng allowShort xs t (n + 1) ht hn,
      cross_take avgKind short lng xs t (n + 1) ht hn]

theorem tfPosition_take (avgKind : String) (short lng : ℕ) (allowShort : Bool) (xs : List ℚ)
    (t i : ℕ) (ht : t < xs.length) (hi : i ≤ t) :
    position avgKind short lng allowShort (xs.take (t + 1)) i =
      position avgKind short lng allowShort xs i := by
  unfold position
  rcases eq_or_ne i 0 with h0 | h0
  · simp [h0]
  · rw [if_neg h0, if_neg h0,
      posRaw_take avgKind short lng allowShort xs t ht (i - 1) (by omega)]

end TWS.TF

namespace TWS.SA

theorem histSlice_take (ps : List (ℚ × ℚ)) (w t i : ℕ) (hi : i ≤ t + 1) :
    histSlice (ps.take (t + 1)) w i = histSlice ps w i := by
  unfold histSlice
  rw [List.take_take, min_eq_left hi]

theorem alphaCol_take (w : ℕ) (ps : List (ℚ × ℚ)) (t i : ℕ) (ht : t < ps.length)
    (hi : i ≤ t) : alphaCol w (ps.take (t + 1)) i = alphaCol w ps i := by
  unfold alphaCol
  rw [histSlice_take ps w t i (by omega), List.length_take]
  exact if_congr (by omega) rfl rfl

theorem betaCol_take (w : ℕ) (ps : List (ℚ × ℚ)) (t i : ℕ) (ht : t < ps.length)
    (hi : i ≤ t) : betaCol w (ps.take (t + 1)) i = betaCol w ps i := by
  unfold betaCol
  rw [histSlice_take ps w t i (by omega), List.length_take]
  exact if_congr (by omega) rfl rfl

theorem get?_take_le_pair (ps : List (ℚ × ℚ)) (t i : ℕ) (hi : i ≤ t) :
    (ps.take (t + 1)).get? i = ps.get? i := by
  simp only [List.get?_eq_getElem?]
  exact List.getElem?_take_of_lt (by omega)

theorem spread_take (w : ℕ) (ps : List (ℚ × ℚ)) (t i : ℕ) (ht : t < ps.length)
    (hi : i ≤ t) : spread w (ps.take (t + 1)) i = spread w ps i := by
  unfold spread
  rw [get?_take_le_pair ps t i hi, alphaCol_take w ps t i ht hi,
    betaCol_take w ps t i ht hi]

theorem winIdx_le (w i : ℕ) : ∀ j ∈ winIdx w i, j ≤ i := by
  intro j hj
  unfold winIdx at hj
  have hj2 : j ∈ List.range (i + 1) := List.mem_of_mem_drop hj
  rw [List.mem_range] at hj2
  omega

theorem rollMeanOpt_congr (w i : ℕ) (f g : ℕ → Option ℚ) (h : ∀ j ≤ i, f j = g j) :
    rollMeanOpt w f i = rollMeanOpt w g i := by
  unfold rollMeanOpt
  rw [List.filterMap_congr (fun j hj => h j (winIdx_le w i j hj))]

theorem rollVarOpt_congr (w i : ℕ) (f g : ℕ → Option ℚ) (h : ∀ j ≤ i, f j = g j) :
    rollVarOpt w f i = rollVarOpt w g i := by
  unfold rollVarOpt
  rw [List.filterMap_congr (fun j hj => h j (winIdx_le w i j hj))]

theorem meanSpread_take (w : ℕ) (ps : List (ℚ × ℚ)) (t i : ℕ) (ht : t < ps.length)
    (hi : i ≤ t) : meanSpread w (ps.take (t + 1)) i = meanSpread w ps i := by
  unfold meanSpread
  exact rollMeanOpt_congr w i _ _ (fun j hj => spread_take w ps t j ht (by omega))

theorem stdSpread_take (w : ℕ) (ps : List (ℚ × ℚ)) (t i : ℕ) (ht : t < ps.length)
    (hi : i ≤ t) : stdSpread w (ps.take (t + 1)) i = stdSpread w ps i := by
  unfold stdSpread
  rw [rollVarOpt_congr w i _ _ (fun j hj => spread_take w ps t j ht (by omega))]

theorem zScore_take (w : ℕ) (ps : List (ℚ × ℚ)) (t i : ℕ) (ht : t < ps.length)
    (hi : i ≤ t) : zScore w (ps.take (t + 1)) i = zScore w ps i := by
  unfold zScore
  rw [spread_take w ps t i ht hi, meanSpread_take w ps t i ht hi,
    stdSpread_take w ps t i ht hi]

theorem saStates_congr (entryZ exitZ : ℚ) (maxH : Option ℕ) (z z2 : ℕ → Option ℝ) :
    ∀ i, (∀ j ≤ i, z j = z2 j) →
      saStates entryZ exitZ maxH z i = saStates entryZ exitZ maxH z2 i := by
  intro i
  induction i with
  | zero =>
    intro h
    unfold saStates
    rw [h 0 (le_refl 0)]
  | succ n ih =>
    intro h
    unfold saStates
    rw [h (n + 1) le_rfl, ih (fun j hj => h j (by omega))]

theorem saPosition_take (entryZ exitZ : ℚ) (maxH : Option ℕ) (w : ℕ) (ps : List (ℚ × ℚ))
    (t i : ℕ) (ht : t < ps.length) (hi : i ≤ t) :
    position entryZ exitZ maxH w (ps.take (t + 1)) i =
      position entryZ exitZ maxH w ps i := by
  unfold position
  rcases eq_or_ne i 0 with h0 | h0
  · simp [h0]
  · rw [if_neg h0, if_neg h0,
      saStates_congr entryZ exitZ maxH _ _ (i - 1)
        (fun j hj => zScore_take w ps t j ht (by omega))]

end TWS.SA

namespace TWS

/-! ### Claim C1 -/

/-- C1: for `mean_reversion_strategy`, `trend_following_cross` and
`statistical_arbitrage_pairs`, the position used at bar `t` is a pure function
of bars with index `≤ t - 1`: re-running any of the three strategies on the
series truncated after bar `t` (its prefix of length `t + 1`) reproduces the
position column at every index `i ≤ t`. -/
theorem C1_no_lookahead_truncation (w : ℕ) (k : ℚ) (avgKind : String) (short lng : ℕ)
    (allowShort : Bool) (entryZ exitZ : ℚ) (maxH : Option ℕ) (wSA : ℕ)
    (xs : List ℚ) (ps : List (ℚ × ℚ)) (t i : ℕ)
    (htx : t < xs.length) (htp : t < ps.length) (hi : i ≤ t) :
    MR.position w k (xs.take (t + 1)) i = MR.position w k xs i ∧
    TF.position avgKind short lng allowShort (xs.take (t + 1)) i =
      TF.position avgKind short lng allowShort xs i ∧
    SA.position entryZ exitZ maxH wSA (ps.take (t + 1)) i =
      SA.position entryZ exitZ maxH wSA ps i :=
  ⟨MR.mrPosition_take w k xs t i htx hi,
    TF.tfPosition_take avgKind short lng allowShort xs t i htx hi,
    SA.saPosition_take entryZ exitZ maxH wSA ps t i htp hi⟩

/-- Witness for C1 at a concrete series, truncation point and index. -/
theorem C1_no_lookahead_truncation_witness :
    (2 < ([5, 7, 6, 8] : List ℚ).length ∧
      2 < ([((5 : ℚ), (2 : ℚ)), (7, 3), (6, 2), (8, 4)] : List (ℚ × ℚ)).length ∧ 1 ≤ 2) ∧
    (MR.position 2 2 (([5, 7, 6, 8] : List ℚ).take 3) 1 = MR.position 2 2 [5, 7, 6, 8] 1 ∧
      TF.position "EMA" 1 2 false (([5, 7, 6, 8] : List ℚ).take 3) 1 =
        TF.position "EMA" 1 2 false [5, 7, 6, 8] 1 ∧
      SA.position 2 0 none 1 (([((5 : ℚ), (2 : ℚ)), (7, 3), (6, 2), (8, 4)]).take 3) 1 =
        SA.position 2 0 none 1 [((5 : ℚ), (2 : ℚ)), (7, 3), (6, 2), (8, 4)] 1) :=
  ⟨⟨by decide, by decide, by decide⟩,
    C1_no_lookahead_truncation 2 2 "EMA" 1 2 false 2 0 none 1
      [5, 7, 6, 8] [((5 : ℚ), (2 : ℚ)), (7, 3), (6, 2), (8, 4)] 2 1
      (by decide) (by decide) (by decide)⟩

/-! ### Claim C2 -/

/-- C2 counterexample: the inventory bound fails for a configuration with
`inventory_limit = 1 > 0` but a negative `order_size = -3`: on the series
`[100, 50]` the mid crosses the previous bid, the buy branch executes with the
clipped quantity `min(-3, 1 - 0) = -3`, and the recorded inventory `-3`
violates `|inventory| ≤ 1`. -/
theorem C2_inventory_bound_cex :
    ¬ (∀ r ∈ mmRows ⟨10, -3, 1, 0, 0, true⟩ [100, 50], |r.inventory| ≤ 1) := by
  intro h
  have hmap : (mmRows ⟨10, -3, 1, 0, 0, true⟩ [100, 50]).map (fun r => r.inventory)
      = [0, -3] := by
    norm_num [mmRows, mmInit, mmStep, mmBuy, mmSell, List.scanl]
  have h2 : ∀ v ∈ (mmRows ⟨10, -3, 1, 0, 0, true⟩ [100, 50]).map (fun r => r.inventory),
      |v| ≤ (1 : ℤ) := by
    intro v hv
    obtain ⟨r, hr, rfl⟩ := List.mem_map.mp hv
    exact h r hr
  rw [hmap] at h2
  have h3 := h2 (-3) (by simp)
  norm_num at h3

/-- C2 (amended): in `market_making_strategy`, for every input series and
every configuration with `inventory_limit > 0` and a non-negative
`order_size`, the recorded inventory satisfies `|Inventory_t| ≤
inventory_limit` at every bar — the buy and sell fill quantities are clipped
to the remaining headroom. -/
theorem C2_inventory_bound (p : MMParams) (xs : List ℚ) (hL : 0 < p.invLimit)
    (hos : 0 ≤ p.orderSize) :
    ∀ r ∈ mmRows p xs, |r.inventory| ≤ p.invLimit :=
  mmRows_inventory_bound p hL hos xs

/-- Witness for C2 at a concrete run. -/
theorem C2_inventory_bound_witness :
    ((0 : ℤ) < 5 ∧ (0 : ℤ) ≤ 1) ∧
      ∀ r ∈ mmRows ⟨10, 1, 5, 0, 0, true⟩ [100, 99, 101], |r.inventory| ≤ 5 :=
  ⟨⟨by decide, by decide⟩,
    C2_inventory_bound ⟨10, 1, 5, 0, 0, true⟩ [100, 99, 101] (by decide) (by decide)⟩

/-! ### Claim C8 -/

theorem mmStep_flat (p : MMParams) (m : ℚ) (hskew : p.skewBps = 0) (hm : 0 < m)
    (hs : 0 < p.spreadBps) : mmStep p (mmInit p m) m = mmInit p m := by
  have hms : 0 < m * (p.spreadBps / 10000) := by positivity
  have hbid : ¬ (m ≤ m * (1 - p.spreadBps / 10000)) := by nlinarith
  have hask : ¬ (m * (1 + p.spreadBps / 10000) ≤ m) := by nlinarith
  unfold mmStep mmBuy mmSell mmInit
  simp only [hskew, zero_div, zero_mul, ite_self, Int.cast_zero, add_zero, mul_one,
    hbid, false_and, if_false, hask, and_false, false_and, if_false]

theorem scanl_fixed_replicate {f : MMRow → ℚ → MMRow} {b : MMRow} {a : ℚ}
    (hf : f b a = b) : ∀ n, ∀ r ∈ List.scanl f b (List.replicate n a), r = b := by
  intro n
  induction n with
  | zero =>
    intro r hr
    simpa using hr
  | succ k ih =>
    intro r hr
    rw [List.replicate_succ, List.scanl_cons, hf] at hr
    simp only [List.singleton_append, List.mem_cons] at hr
    rcases hr with rfl | hr
    · rfl
    · exact ih r hr

theorem mmRows_flat (p : MMParams) (m : ℚ) (n : ℕ) (hskew : p.skewBps = 0) (hm : 0 < m)
    (hs : 0 < p.spreadBps) : ∀ r ∈ mmRows p (List.replicate n m), r = mmInit p m := by
  cases n with
  | zero => intro r hr; simp [mmRows] at hr
  | succ k =>
    rw [List.replicate_succ]
    exact scanl_fixed_replicate (mmStep_flat p m hskew hm hs) k

/-- C8 counterexample: on a constant price series with `skew_bps = 0` but a
zero configured spread, the previous bar's bid and ask coincide with the mid,
so both sides fill on every later bar: at bar 1 of `[100, 100]` the recorded
`FillQty` is `2`, not `0` — the claim's "no fill occurs at any bar" fails
without a positivity assumption on the spread. -/
theorem C8_flat_series_cex :
    ¬ (∀ r ∈ mmRows ⟨0, 1, 100, 0, 0, true⟩ [100, 100], r.fillQty = 0) := by
  intro h
  have hmap : (mmRows ⟨0, 1, 100, 0, 0, true⟩ [100, 100]).map (fun r => r.fillQty)
      = [0, 2] := by
    norm_num [mmRows, mmInit, mmStep, mmBuy, mmSell, List.scanl]
  have h2 : ∀ v ∈ (mmRows ⟨0, 1, 100, 0, 0, true⟩ [100, 100]).map (fun r => r.fillQty),
      v = (0 : ℤ) := by
    intro v hv
    obtain ⟨r, hr, rfl⟩ := List.mem_map.mp hv
    exact h r hr
  rw [hmap] at h2
  have h3 := h2 2 (by simp)
  norm_num at h3

/-- C8 (amended): for `market_making_strategy` on a constant positive
reference price series with `skew_bps = 0` and a positive configured spread,
no fill occurs at any bar (the price never crosses the previous bar's quotes),
and the inventory, cash and equity stay `0` at every bar — in particular the
final inventory and final equity are `0`. -/
theorem C8_flat_series (p : MMParams) (m : ℚ) (n : ℕ) (hskew : p.skewBps = 0)
    (hs : 0 < p.spreadBps) (hm : 0 < m) :
    ∀ r ∈ mmRows p (List.replicate n m),
      r.fillQty = 0 ∧ r.inventory = 0 ∧ r.cash = 0 ∧ r.equity = 0 := by
  intro r hr
  rw [mmRows_flat p m n hskew hm hs r hr]
  exact ⟨rfl, rfl, rfl, rfl⟩

/-- Witness for C8 at a concrete flat run. -/
theorem C8_flat_series_witness :
    (((⟨10, 1, 100, 0, 0, true⟩ : MMParams).skewBps = 0 ∧ (0 : ℚ) < 10 ∧ (0 : ℚ) < 100) ∧
      ∀ r ∈ mmRows ⟨10, 1, 100, 0, 0, true⟩ (List.replicate 4 (100 : ℚ)),
        r.fillQty = 0 ∧ r.inventory = 0 ∧ r.cash = 0 ∧ r.equity = 0) :=
  ⟨⟨by decide, by decide, by decide⟩,
    C8_flat_series ⟨10, 1, 100, 0, 0, true⟩ 100 4 (by decide) (by decide) (by decide)⟩

/-! ### Claim C9 -/

/-- C9 counterexample: `market_making_strategy` does not raise for a
non-positive inventory limit with a non-zero skew requested: with
`inventory_limit = 0` and `skew_bps = 5` on a well-formed input (the price
column present) the run returns normally — the guarded skew expression falls
back to `0.0` instead of raising a `ConfigurationError`. -/
theorem C9_config_errors_cex :
    mmRun ["MidPrice"] "MidPrice" ⟨10, 1, 0, 5, 0, true⟩ [100] =
      Except.ok (mmRows ⟨10, 1, 0, 5, 0, true⟩ [100]) := by
  simp [mmRun]

/-- C9 (amended): `mean_reversion_strategy` fails with a `ConfigurationError`
exactly when the required price field is absent; `trend_following_cross` fails
exactly when the price field is absent, or `short_window ≥ long_window`, or
the moving-average kind (after upper-casing) is neither `"EMA"` nor `"SMA"`;
`statistical_arbitrage_pairs` fails exactly when either asset column is
absent; and `market_making_strategy` fails exactly when the price field is
absent — a non-positive inventory limit with skew requested does not raise
(the skew term is silently disabled). -/
theorem C9_config_errors (cols : List String) (priceCol assetY assetX : String)
    (w : ℕ) (k : ℚ) (short lng : ℕ) (avgKind : String) (allowShort : Bool) (c : ℚ)
    (entryZ exitZ cpl : ℚ) (maxH : Option ℕ) (wSA : ℕ)
    (xs : List ℚ) (ps : List (ℚ × ℚ)) (p : MMParams) :
    ((∃ e, mrRun cols priceCol w k xs = .error e) ↔ priceCol ∉ cols) ∧
    ((∃ e, tfRun cols priceCol short lng avgKind allowShort c xs = .error e) ↔
      (priceCol ∉ cols ∨ lng ≤ short ∨
        (avgKind.toUpper ≠ "EMA" ∧ avgKind.toUpper ≠ "SMA"))) ∧
    ((∃ e, saRun cols assetY assetX wSA entryZ exitZ cpl maxH ps = .error e) ↔
      (assetY ∉ cols ∨ assetX ∉ cols)) ∧
    ((∃ e, mmRun cols priceCol p xs = .error e) ↔ priceCol ∉ cols) := by
  refine ⟨?_, ?_, ?_, ?_⟩
  · unfold mrRun
    split_ifs with h <;> simp [h]
  · unfold tfRun
    split_ifs with h1 h2 h3 <;> simp_all
  · unfold saRun
    split_ifs with h <;> simp [h]
  · unfold mmRun
    split_ifs with h <;> simp [h]

/-! ### Claim C10 -/

theorem scanl_get?_zero {α β : Type} (f : β → α → β) (b : β) (l : List α) :
    (List.scanl f b l).get? 0 = some b := by
  cases l <;> simp [List.scanl]

theorem scanl_get?_succ {α β : Type} (f : β → α → β) (b : β) (l : List α) :
    ∀ (i : ℕ) (a : α) (r : β), l.get? i = some a →
      (List.scanl f b l).get? i = some r →
      (List.scanl f b l).get? (i + 1) = some (f r a) := by
  induction l generalizing b with
  | nil => intro i a r hl; simp at hl
  | cons x t ih =>
    intro i a r hl hr
    rw [List.scanl_cons, List.singleton_append] at hr ⊢
    cases i with
    | zero =>
      simp only [List.get?_cons_zero, Option.some.injEq] at hl hr
      subst hl
      subst hr
      rw [List.get?_cons_succ, scanl_get?_zero]
    | succ n =>
      rw [List.get?_cons_succ] at hr ⊢
      rw [List.get?_cons_succ] at hl
      exact ih (f b x) n a r hl hr

/-- Row `i + 1` of the market-making frame is the step applied to row `i` and
the mid at bar `i + 1`. -/
theorem mmRows_get_succ (p : MMParams) (xs : List ℚ) (i : ℕ) (rp : MMRow) (mid : ℚ)
    (hrp : (mmRows p xs).get? i = some rp) (hmid : xs.get? (i + 1) = some mid) :
    (mmRows p xs).get? (i + 1) = some (mmStep p rp mid) := by
  cases xs with
  | nil => simp at hmid
  | cons m0 rest =>
    rw [List.get?_cons_succ] at hmid
    exact scanl_get?_succ (mmStep p) (mmInit p m0) rest i mid rp hmid hrp

/-- With a zero configured spread every recorded bid equals the recorded ask. -/
theorem mmRows_quotes_eq (p : MMParams) (hs : p.spreadBps = 0) (xs : List ℚ) :
    ∀ r ∈ mmRows p xs, r.bidQuote = r.askQuote := by
  cases xs with
  | nil => intro r hr; simp [mmRows] at hr
  | cons m0 rest =>
    have hstep : ∀ (b : MMRow) (a : ℚ), (mmStep p b a).bidQuote = (mmStep p b a).askQuote := by
      intro b a
      simp [mmStep, hs]
    have hinit : (mmInit p m0).bidQuote = (mmInit p m0).askQuote := by
      simp [mmInit, hs]
    show ∀ r ∈ List.scanl (mmStep p) (mmInit p m0) rest, r.bidQuote = r.askQuote
    generalize hb : mmInit p m0 = b at hinit
    clear hb
    induction rest generalizing b with
    | nil =>
      intro r hr
      simp only [List.scanl_nil, List.mem_singleton] at hr
      subst hr
      exact hinit
    | cons a t ih =>
      intro r hr
      rw [List.scanl_cons, List.singleton_append] at hr
      rcases List.mem_cons.mp hr with rfl | hr
      · exact hinit
      · exact ih (mmStep p b a) (hstep b a) r hr

/-- C10 counterexample: at a bar where the price crosses both previous quotes
but the pre-bar inventory already sits at the limit, only the sell side fills:
on `[100, 90, 90]` with zero spread, `order_size = 1`, `inventory_limit = 1`,
bar 1 buys (inventory reaches the limit 1), and at bar 2 the mid equals both
previous quotes yet `FillSide = -1 ≠ 0` — "both fills execute" fails without
an inventory-headroom assumption. -/
theorem C10_both_side_fills_cex :
    (mmRows ⟨0, 1, 1, 0, 0, true⟩ [100, 90, 90]).map (fun r => r.fillSide) = [0, 1, -1] := by
  norm_num [mmRows, mmInit, mmStep, mmBuy, mmSell, List.scanl]

/-- C10 (amended): in `market_making_strategy` with
`allow_both_side_fills = True`, a zero configured spread, `order_size ≥ 1` and
`inventory_limit > 0`, whenever the current price crosses both of the previous
bar's quotes and the pre-bar inventory leaves at least `order_size` of
headroom below the limit, both fills execute: the recorded `FillSide` is `0`
(the `+1` and `-1` contributions cancel), `FillQty` is the sum `2·order_size`
of the two equal fill quantities, the inventory is unchanged, and cash changes
only by the fees on the two legs (`-2·order_size·price·fee`). -/
theorem C10_both_side_fills (p : MMParams) (xs : List ℚ) (i : ℕ) (rp : MMRow) (mid : ℚ)
    (hallow : p.allowBoth = true) (hspread : p.spreadBps = 0) (hos : 1 ≤ p.orderSize)
    (hL : 0 < p.invLimit)
    (hrp : (mmRows p xs).get? i = some rp) (hmid : xs.get? (i + 1) = some mid)
    (hcb : mid ≤ rp.bidQuote) (hca : rp.askQuote ≤ mid)
    (hroom : rp.inventory + p.orderSize ≤ p.invLimit) :
    (mmRows p xs).get? (i + 1) = some (mmStep p rp mid) ∧
    (mmStep p rp mid).fillSide = 0 ∧
    (mmStep p rp mid).fillQty = 2 * p.orderSize ∧
    (mmStep p rp mid).inventory = rp.inventory ∧
    (mmStep p rp mid).cash = rp.cash - 2 * (mid * (p.orderSize : ℚ) * (p.feeBps / 10000)) := by
  have hmem : rp ∈ mmRows p xs := List.get?_mem hrp
  have hinv : |rp.inventory| ≤ p.invLimit :=
    mmRows_inventory_bound p hL (by omega) xs rp hmem
  rw [abs_le] at hinv
  have hquotes : rp.bidQuote = rp.askQuote := mmRows_quotes_eq p hspread xs rp hmem
  have hmid_bid : mid = rp.bidQuote := le_antisymm hcb (hquotes ▸ hca)
  have hbuy :
      mmBuy p rp.bidQuote mid { inv := rp.inventory, cash := rp.cash, side := 0, qty := 0 } =
        { inv := rp.inventory + p.orderSize,
          cash := rp.cash - rp.bidQuote * (p.orderSize : ℚ) -
            rp.bidQuote * (p.orderSize : ℚ) * (p.feeBps / 10000),
          side := 1, qty := p.orderSize } := by
    unfold mmBuy
    dsimp only
    rw [if_pos ⟨hcb, show rp.inventory < p.invLimit by omega⟩,
      min_eq_left (show p.orderSize ≤ p.invLimit - rp.inventory by omega)]
    simp [MMFill.mk.injEq]
  have hsell :
      mmSell p rp.askQuote mid
        { inv := rp.inventory + p.orderSize,
          cash := rp.cash - rp.bidQuote * (p.orderSize : ℚ) -
            rp.bidQuote * (p.orderSize : ℚ) * (p.feeBps / 10000),
          side := 1, qty := p.orderSize } =
        { inv := rp.inventory,
          cash := rp.cash - rp.bidQuote * (p.orderSize : ℚ) -
              rp.bidQuote * (p.orderSize : ℚ) * (p.feeBps / 10000) +
              rp.askQuote * (p.orderSize : ℚ) - rp.askQuote * (p.orderSize : ℚ) *
              (p.feeBps / 10000),
          side := 0, qty := p.orderSize + p.orderSize } := by
    unfold mmSell
    dsimp only
    rw [if_pos ⟨Or.inl hallow, hca,
        show -p.invLimit < rp.inventory + p.orderSize by omega⟩,
      min_eq_left (show p.orderSize ≤ rp.inventory + p.orderSize + p.invLimit by omega),
      if_pos (show (0 : ℤ) < p.orderSize by omega)]
    simp only [MMFill.mk.injEq]
    refine ⟨by omega, ?_⟩
    refine ⟨?_, by omega, ?_⟩ <;> ring_nf
  refine ⟨mmRows_get_succ p xs i rp mid hrp hmid, ?_, ?_, ?_, ?_⟩
  · unfold mmStep
    dsimp only
    rw [hbuy, hsell]
  · unfold mmStep
    dsimp only
    rw [hbuy, hsell]
    dsimp only
    omega
  · unfold mmStep
    dsimp only
    rw [hbuy, hsell]
  · unfold mmStep
    dsimp only
    rw [hbuy, hsell]
    dsimp only
    rw [← hquotes, ← hmid_bid]
    ring

/-- Witness for C10 at a concrete dual-side fill. -/
theorem C10_both_side_fills_witness :
    ((⟨0, 1, 5, 0, 2, true⟩ : MMParams).allowBoth = true ∧
      (⟨0, 1, 5, 0, 2, true⟩ : MMParams).spreadBps = 0 ∧
      1 ≤ (⟨0, 1, 5, 0, 2, true⟩ : MMParams).orderSize ∧
      0 < (⟨0, 1, 5, 0, 2, true⟩ : MMParams).invLimit ∧
      (mmRows ⟨0, 1, 5, 0, 2, true⟩ [100, 100]).get? 0 =
        some ⟨100, 100, 0, 0, 0, 0, 0⟩ ∧
      ([100, 100] : List ℚ).get? 1 = some 100 ∧
      (100 : ℚ) ≤ (⟨100, 100, 0, 0, 0, 0, 0⟩ : MMRow).bidQuote ∧
      (⟨100, 100, 0, 0, 0, 0, 0⟩ : MMRow).askQuote ≤ (100 : ℚ) ∧
      (⟨100, 100, 0, 0, 0, 0, 0⟩ : MMRow).inventory +
        (⟨0, 1, 5, 0, 2, true⟩ : MMParams).orderSize ≤
        (⟨0, 1, 5, 0, 2, true⟩ : MMParams).invLimit) ∧
    ((mmRows ⟨0, 1, 5, 0, 2, true⟩ [100, 100]).get? (0 + 1) =
        some (mmStep ⟨0, 1, 5, 0, 2, true⟩ ⟨100, 100, 0, 0, 0, 0, 0⟩ 100) ∧
      (mmStep ⟨0, 1, 5, 0, 2, true⟩ ⟨100, 100, 0, 0, 0, 0, 0⟩ 100).fillSide = 0 ∧
      (mmStep ⟨0, 1, 5, 0, 2, true⟩ ⟨100, 100, 0, 0, 0, 0, 0⟩ 100).fillQty =
        2 * (⟨0, 1, 5, 0, 2, true⟩ : MMParams).orderSize ∧
      (mmStep ⟨0, 1, 5, 0, 2, true⟩ ⟨100, 100, 0, 0, 0, 0, 0⟩ 100).inventory =
        (⟨100, 100, 0, 0, 0, 0, 0⟩ : MMRow).inventory ∧
      (mmStep ⟨0, 1, 5, 0, 2, true⟩ ⟨100, 100, 0, 0, 0, 0, 0⟩ 100).cash =
        (⟨100, 100, 0, 0, 0, 0, 0⟩ : MMRow).cash -
          2 * ((100 : ℚ) * (((⟨0, 1, 5, 0, 2, true⟩ : MMParams).orderSize : ℤ) : ℚ) *
            ((⟨0, 1, 5, 0, 2, true⟩ : MMParams).feeBps / 10000))) := by
  have hrp : (mmRows ⟨0, 1, 5, 0, 2, true⟩ [100, 100]).get? 0 =
      some ⟨100, 100, 0, 0, 0, 0, 0⟩ := by
    norm_num [mmRows, mmInit, List.scanl]
  exact ⟨⟨rfl, rfl, by decide, by decide, hrp, by decide, by decide, by decide, by decide⟩,
    C10_both_side_fills ⟨0, 1, 5, 0, 2, true⟩ [100, 100] 0 ⟨100, 100, 0, 0, 0, 0, 0⟩ 100
      rfl rfl (by decide) (by decide) hrp (by decide) (by decide) (by decide) (by decide)⟩

end TWS

namespace TWS.SA

/-! ### Claim C3: leg counting of the pairs cost model -/

theorem saStep_fst_mem (entryZ exitZ : ℚ) (maxH : Option ℕ) (z : Option ℝ) (st : ℤ × ℕ)
    (h : st.1 = -1 ∨ st.1 = 0 ∨ st.1 = 1) :
    (saStep entryZ exitZ maxH z st).1 = -1 ∨ (saStep entryZ exitZ maxH z st).1 = 0 ∨
      (saStep entryZ exitZ maxH z st).1 = 1 := by
  unfold saStep
  cases z with
  | none => exact h
  | some zv =>
    dsimp only
    cases maxH with
    | none =>
      split_ifs <;> simp_all
    | some m =>
      split_ifs <;> try simp_all
      all_goals (split <;> simp_all)

theorem saStates_fst_mem (entryZ exitZ : ℚ) (maxH : Option ℕ) (z : ℕ → Option ℝ) :
    ∀ i, (saStates entryZ exitZ maxH z i).1 = -1 ∨
      (saStates entryZ exitZ maxH z i).1 = 0 ∨ (saStates entryZ exitZ maxH z i).1 = 1 := by
  intro i
  induction i with
  | zero =>
    unfold saStates
    exact saStep_fst_mem entryZ exitZ maxH (z 0) (0, 0) (by simp)
  | succ n ih =>
    unfold saStates
    exact saStep_fst_mem entryZ exitZ maxH (z (n + 1)) _ ih

theorem position_mem (entryZ exitZ : ℚ) (maxH : Option ℕ) (w : ℕ) (ps : List (ℚ × ℚ))
    (i : ℕ) : position entryZ exitZ maxH w ps i = -1 ∨
      position entryZ exitZ maxH w ps i = 0 ∨ position entryZ exitZ maxH w ps i = 1 := by
  unfold position
  rcases eq_or_ne i 0 with h0 | h0
  · simp [h0]
  · rw [if_neg h0]
    exact saStates_fst_mem entryZ exitZ maxH (zScore w ps) (i - 1)

end TWS.SA

namespace TWS

/-- C3: in `statistical_arbitrage_pairs`, the per-bar cost column holds
`-(cost_per_leg · legs)`, where a bar with a position change between
consecutive bars counts 2 legs, a direct sign flip (long to short or short to
long in one step) counts 4 legs in total, and a bar with no position change
counts 0 legs (the position before bar 0 is flat). -/
theorem C3_pairs_leg_costs (cpl entryZ exitZ : ℚ) (maxH : Option ℕ) (w : ℕ)
    (ps : List (ℚ × ℚ)) (i : ℕ) :
    SA.costsSA cpl entryZ exitZ maxH w ps i =
      -(cpl * (SA.legs entryZ exitZ maxH w ps i : ℚ)) ∧
    SA.legs entryZ exitZ maxH w ps i =
      (if (SA.prevPosition entryZ exitZ maxH w ps i = 1 ∧
            SA.position entryZ exitZ maxH w ps i = -1) ∨
          (SA.prevPosition entryZ exitZ maxH w ps i = -1 ∧
            SA.position entryZ exitZ maxH w ps i = 1) then 4
        else if SA.position entryZ exitZ maxH w ps i ≠
            SA.prevPosition entryZ exitZ maxH w ps i then 2
        else 0) := by
  constructor
  · unfold SA.costsSA
    ring
  · have hP := SA.position_mem entryZ exitZ maxH w ps i
    have hQ : SA.prevPosition entryZ exitZ maxH w ps i = -1 ∨
        SA.prevPosition entryZ exitZ maxH w ps i = 0 ∨
        SA.prevPosition entryZ exitZ maxH w ps i = 1 := by
      unfold SA.prevPosition
      rcases eq_or_ne i 0 with h0 | h0
      · simp [h0]
      · rw [if_neg h0]
        exact SA.position_mem entryZ exitZ maxH w ps (i - 1)
    unfold SA.legs
    rcases hP with hP | hP | hP <;> rcases hQ with hQ | hQ | hQ <;>
      rw [hP, hQ] <;> norm_num

/-! ### Claim C7: mean reversion on a constant series -/

theorem winSlice_replicate (c : ℚ) (n w i : ℕ) (hw1 : w ≤ i + 1) (hin : i < n) :
    winSlice (List.replicate n c) w i = List.replicate w c := by
  unfold winSlice
  rw [List.take_replicate, List.drop_replicate]
  congr 1
  omega

theorem rollMean_replicate (c : ℚ) (n w i : ℕ) (hw : 1 ≤ w) (hw1 : w ≤ i + 1)
    (hin : i < n) : rollMean w (List.replicate n c) i = some c := by
  unfold rollMean
  rw [if_pos ⟨hw1, by simp [hin]⟩, winSlice_replicate c n w i hw1 hin]
  congr 1
  rw [List.sum_replicate, nsmul_eq_mul]
  have hw0 : ((w : ℚ)) ≠ 0 := Nat.cast_ne_zero.mpr (by omega)
  field_simp

theorem rollVar_replicate (c : ℚ) (n w i : ℕ) (hw : 1 ≤ w) (hw1 : w ≤ i + 1)
    (hin : i < n) : rollVar w (List.replicate n c) i = some 0 := by
  unfold rollVar
  rw [rollMean_replicate c n w i hw hw1 hin]
  dsimp only
  rw [winSlice_replicate c n w i hw1 hin]
  simp [List.map_replicate, List.sum_replicate]

end TWS

namespace TWS.MR

theorem stdDev_replicate (c : ℚ) (n w i : ℕ) (hw : 1 ≤ w) (hw1 : w ≤ i + 1)
    (hin : i < n) : stdDev w (List.replicate n c) i = some 0 := by
  unfold stdDev
  rw [rollVar_replicate c n w i hw hw1 hin]
  simp [Real.sqrt_zero]

theorem zScore_replicate (c : ℚ) (n w i : ℕ) (hw : 1 ≤ w) (hw1 : w ≤ i + 1)
    (hin : i < n) : zScore w (List.replicate n c) i = none := by
  unfold zScore
  rw [show sma w (List.replicate n c) i = some c from
      rollMean_replicate c n w i hw hw1 hin,
    stdDev_replicate c n w i hw hw1 hin,
    show (List.replicate n c).get? i = some c by
      simp [List.get?_eq_getElem?, List.getElem?_replicate, hin]]
  simp

theorem signal_replicate (c k : ℚ) (w n : ℕ) (hw : 1 ≤ w) (i : ℕ) :
    signal w k (List.replicate n c) i = 0 := by
  unfold signal
  by_cases hcond : w ≤ i + 1 ∧ i < n
  · have hu : upperBand w k (List.replicate n c) i = some (c : ℝ) := by
      unfold upperBand
      rw [show sma w (List.replicate n c) i = some c from
          rollMean_replicate c n w i hw hcond.1 hcond.2,
        stdDev_replicate c n w i hw hcond.1 hcond.2]
      norm_num
    have hl : lowerBand w k (List.replicate n c) i = some (c : ℝ) := by
      unfold lowerBand
      rw [show sma w (List.replicate n c) i = some c from
          rollMean_replicate c n w i hw hcond.1 hcond.2,
        stdDev_replicate c n w i hw hcond.1 hcond.2]
      norm_num
    have hp : priceR (List.replicate n c) i = some (c : ℝ) := by
      unfold priceR
      simp [List.get?_eq_getElem?, List.getElem?_replicate, hcond.2]
    rw [hu, hl, hp]
    rw [if_neg, if_neg]
    · rintro ⟨x, y, hx, hy, hxy⟩
      rw [Option.some.injEq] at hx hy
      subst hx
      subst hy
      exact lt_irrefl _ hxy
    · rintro ⟨x, y, hx, hy, hxy⟩
      rw [Option.some.injEq] at hx hy
      subst hx
      subst hy
      exact lt_irrefl _ hxy
  · have hsma : sma w (List.replicate n c) i = none := by
      unfold sma rollMean
      rw [if_neg]
      simpa using hcond
    have hu : upperBand w k (List.replicate n c) i = none := by
      unfold upperBand
      rw [hsma]
    have hl : lowerBand w k (List.replicate n c) i = none := by
      unfold lowerBand
      rw [hsma]
    rw [hu, hl]
    rw [if_neg, if_neg]
    · rintro ⟨x, y, hx, hy, hxy⟩
      exact Option.noConfusion hy
    · rintro ⟨x, y, hx, hy, hxy⟩
      exact Option.noConfusion hx

end TWS.MR

namespace TWS

/-- C7: for `mean_reversion_strategy` on a constant price series with window
`w ≥ 5`, the rolling standard deviation is `0` at every bar after warm-up
(index `≥ w - 1`), the z-score at every such bar is the `NaN` sentinel (not a
number obtained by dividing by zero), and the signal is `0` at every bar. -/
theorem C7_constant_series (c k : ℚ) (w n : ℕ) (hw : 5 ≤ w) :
    (∀ i, w - 1 ≤ i → i < n →
      MR.stdDev w (List.replicate n c) i = some 0 ∧
      MR.zScore w (List.replicate n c) i = none) ∧
    (∀ i, i < n → MR.signal w k (List.replicate n c) i = 0) := by
  constructor
  · intro i h1 h2
    exact ⟨MR.stdDev_replicate c n w i (by omega) (by omega) h2,
      MR.zScore_replicate c n w i (by omega) (by omega) h2⟩
  · intro i _
    exact MR.signal_replicate c k w n (by omega) i

/-- Witness for C7 at a concrete constant series. -/
theorem C7_constant_series_witness :
    5 ≤ 5 ∧
    ((∀ i, 5 - 1 ≤ i → i < 7 →
        MR.stdDev 5 (List.replicate 7 (100 : ℚ)) i = some 0 ∧
        MR.zScore 5 (List.replicate 7 (100 : ℚ)) i = none) ∧
      (∀ i, i < 7 → MR.signal 5 2 (List.replicate 7 (100 : ℚ)) i = 0)) :=
  ⟨by decide, C7_constant_series 100 2 5 7 (by decide)⟩

end TWS

namespace TWS.SA

/-! ### Claim C5: the pairs holding-period counter -/

theorem sigOfZ_mem (entryZ exitZ : ℚ) (v : ℝ) :
    sigOfZ entryZ exitZ v = -1 ∨ sigOfZ entryZ exitZ v = 0 ∨ sigOfZ entryZ exitZ v = 1 := by
  unfold sigOfZ
  split_ifs <;> simp

theorem saStep_reset (entryZ exitZ : ℚ) (maxH : Option ℕ) (z : Option ℝ) (st : ℤ × ℕ)
    (h : (saStep entryZ exitZ maxH z st).1 ≠ st.1) :
    (saStep entryZ exitZ maxH z st).2 = 0 := by
  unfold saStep at h ⊢
  cases z with
  | none => exact absurd rfl h
  | some v =>
    dsimp only at h ⊢
    cases maxH with
    | none =>
      dsimp only at h ⊢
      split_ifs at h ⊢ <;> simp_all
    | some m =>
      dsimp only at h ⊢
      by_cases hstop : st.1 ≠ 0 ∧ m ≤ st.2
      · rw [if_pos hstop] at h ⊢
        split_ifs at h ⊢ <;> simp_all
      · rw [if_neg hstop] at h ⊢
        split_ifs at h ⊢ <;> simp_all

theorem saStep_same_signal (entryZ exitZ : ℚ) (maxH : Option ℕ) (v : ℝ) (st : ℤ × ℕ)
    (hsig : sigOfZ entryZ exitZ v = st.1) (hpos : st.1 ≠ 0)
    (hstop : ∀ m, maxH = some m → st.2 < m) :
    saStep entryZ exitZ maxH (some v) st = (st.1, st.2 + 1) := by
  have hsg : sigOfZ entryZ exitZ v = 1 ∨ sigOfZ entryZ exitZ v = -1 := by
    rcases sigOfZ_mem entryZ exitZ v with h | h | h
    · exact Or.inr h
    · rw [h] at hsig
      exact absurd hsig.symm hpos
    · exact Or.inl h
  unfold saStep
  dsimp only
  cases maxH with
  | none =>
    dsimp only
    rcases hsg with hsg | hsg
    · rw [if_neg (by rw [hsg]; simp), if_pos hsg, if_neg (by rw [← hsig, hsg]; simp),
        ← hsig, hsg]
    · rw [if_neg (by rw [hsg]; simp), if_neg (by rw [hsg]; simp), if_pos hsg,
        if_neg (by rw [← hsig, hsg]; simp), ← hsig, hsg]
  | some m =>
    dsimp only
    have hst1 : (if st.1 ≠ 0 ∧ m ≤ st.2 then ((0 : ℤ), (0 : ℕ)) else st) = st := by
      apply if_neg
      intro hc
      have := hstop m rfl
      omega
    rw [hst1]
    rcases hsg with hsg | hsg
    · rw [if_neg (by rw [hsg]; simp), if_pos hsg, if_neg (by rw [← hsig, hsg]; simp),
        ← hsig, hsg]
    · rw [if_neg (by rw [hsg]; simp), if_neg (by rw [hsg]; simp), if_pos hsg,
        if_neg (by rw [← hsig, hsg]; simp), ← hsig, hsg]

theorem saStep_nan (entryZ exitZ : ℚ) (maxH : Option ℕ) (st : ℤ × ℕ) :
    saStep entryZ exitZ maxH none st = st :=
  rfl

theorem saStep_dead_zone (entryZ exitZ : ℚ) (maxH : Option ℕ) (v : ℝ) (st : ℤ × ℕ)
    (hsig : sigOfZ entryZ exitZ v = 0) (hdead : ¬ (|v| ≤ (exitZ : ℝ)))
    (hstop : ∀ m, maxH = some m → (st.1 = 0 ∨ st.2 < m)) :
    saStep entryZ exitZ maxH (some v) st = st := by
  unfold saStep
  dsimp only
  cases maxH with
  | none =>
    dsimp only
    rw [if_neg (fun hc => hdead hc.2), if_neg (by rw [hsig]; simp),
      if_neg (by rw [hsig]; simp)]
  | some m =>
    dsimp only
    have hst1 : (if st.1 ≠ 0 ∧ m ≤ st.2 then ((0 : ℤ), (0 : ℕ)) else st) = st := by
      apply if_neg
      intro hc
      rcases hstop m rfl with h | h
      · exact hc.1 h
      · omega
    rw [hst1, if_neg (fun hc => hdead hc.2), if_neg (by rw [hsig]; simp),
      if_neg (by rw [hsig]; simp)]

theorem saStep_time_stop (entryZ exitZ : ℚ) (maxH : Option ℕ) (v : ℝ) (st : ℤ × ℕ)
    (m : ℕ) (hm : maxH = some m) (hpos : st.1 ≠ 0) (hheld : m ≤ st.2) :
    saStep entryZ exitZ maxH (some v) st = (sigOfZ entryZ exitZ v, 0) := by
  subst hm
  unfold saStep
  dsimp only
  have hst1 : (if st.1 ≠ 0 ∧ m ≤ st.2 then ((0 : ℤ), (0 : ℕ)) else st) =
      ((0 : ℤ), (0 : ℕ)) := if_pos ⟨hpos, hheld⟩
  rw [hst1]
  rcases sigOfZ_mem entryZ exitZ v with h1 | h1 | h1 <;> rw [h1] <;>
    split_ifs <;> simp_all

end TWS.SA

namespace TWS

/-- C5 counterexample: the holding-period counter does not increment on every
bar on which the machine remains in the same non-flat state.  With
`entry_z = 2`, `exit_z = 0` and the z-score series `3, 1`: bar 0 enters short
(state `(-1, 0)`), and at bar 1 the z-score `1` is in the dead zone (no entry
signal, not within the exit band), so the machine stays short but the counter
stays `0` instead of incrementing to `1` — `held` only increments when the
entry signal of the current side recurs. -/
theorem C5_holding_counter_cex :
    SA.saStates 2 0 none (fun i => if i = 0 then some (3 : ℝ) else some 1) 0 = (-1, 0) ∧
    SA.saStates 2 0 none (fun i => if i = 0 then some (3 : ℝ) else some 1) 1 = (-1, 0) := by
  have habs3 : |(3 : ℝ)| = 3 := abs_of_pos (by norm_num)
  have habs1 : |(1 : ℝ)| = 1 := abs_of_pos (by norm_num)
  have hsig3 : SA.sigOfZ 2 0 (3 : ℝ) = -1 := by
    unfold SA.sigOfZ
    rw [if_neg (by rw [habs3]; push_cast; norm_num), if_pos (by push_cast; norm_num)]
  have hsig1 : SA.sigOfZ 2 0 (1 : ℝ) = 0 := by
    unfold SA.sigOfZ
    rw [if_neg (by rw [habs1]; push_cast; norm_num),
      if_neg (by push_cast; norm_num), if_neg (by push_cast; norm_num)]
  have h0 : SA.saStates 2 0 none (fun i => if i = 0 then some (3 : ℝ) else some 1) 0
      = (-1, 0) := by
    show SA.saStep 2 0 none (some 3) (0, 0) = (-1, 0)
    unfold SA.saStep
    dsimp only
    rw [hsig3, if_neg (by norm_num), if_neg (by norm_num), if_pos rfl,
      if_pos (by norm_num)]
  refine ⟨h0, ?_⟩
  show SA.saStep 2 0 none (some 1) _ = (-1, 0)
  rw [h0]
  unfold SA.saStep
  dsimp only
  rw [hsig1, if_neg (by rw [habs1]; push_cast; norm_num), if_neg (by norm_num),
    if_neg (by norm_num)]

/-- C5 (amended): in the pairs position state machine of
`statistical_arbitrage_pairs`, (a) the holding-period counter resets to zero
on any state transition; (b) it increments exactly on bars whose defined
z-score re-issues the entry signal of the current non-flat state while no
configured time stop fires; (c) a bar with an undefined z-score leaves state
and counter unchanged; (d) a dead-zone bar (signal 0, `|z|` outside the exit
band) with no firing time stop leaves state and counter unchanged; and (e)
when `max_holding` is configured and the counter has reached it, the next bar
with a defined z-score forces the position flat with the counter reset — the
same bar's entry signal may immediately re-enter. -/
theorem C5_holding_counter (entryZ exitZ : ℚ) (maxH : Option ℕ) (z : ℕ → Option ℝ)
    (i : ℕ) :
    ((SA.saStates entryZ exitZ maxH z (i + 1)).1 ≠ (SA.saStates entryZ exitZ maxH z i).1 →
      (SA.saStates entryZ exitZ maxH z (i + 1)).2 = 0) ∧
    (∀ v, z (i + 1) = some v →
      SA.sigOfZ entryZ exitZ v = (SA.saStates entryZ exitZ maxH z i).1 →
      (SA.saStates entryZ exitZ maxH z i).1 ≠ 0 →
      (∀ m, maxH = some m → (SA.saStates entryZ exitZ maxH z i).2 < m) →
      SA.saStates entryZ exitZ maxH z (i + 1) =
        ((SA.saStates entryZ exitZ maxH z i).1, (SA.saStates entryZ exitZ maxH z i).2 + 1)) ∧
    (z (i + 1) = none →
      SA.saStates entryZ exitZ maxH z (i + 1) = SA.saStates entryZ exitZ maxH z i) ∧
    (∀ v, z (i + 1) = some v →
      SA.sigOfZ entryZ exitZ v = 0 → ¬ (|v| ≤ (exitZ : ℝ)) →
      (∀ m, maxH = some m →
        ((SA.saStates entryZ exitZ maxH z i).1 = 0 ∨
          (SA.saStates entryZ exitZ maxH z i).2 < m)) →
      SA.saStates entryZ exitZ maxH z (i + 1) = SA.saStates entryZ exitZ maxH z i) ∧
    (∀ v m, z (i + 1) = some v → maxH = some m →
      (SA.saStates entryZ exitZ maxH z i).1 ≠ 0 →
      m ≤ (SA.saStates entryZ exitZ maxH z i).2 →
      SA.saStates entryZ exitZ maxH z (i + 1) = (SA.sigOfZ entryZ exitZ v, 0)) := by
  refine ⟨?_, ?_, ?_, ?_, ?_⟩
  · intro h
    exact SA.saStep_reset entryZ exitZ maxH (z (i + 1)) _ h
  · intro v hv hsig hpos hstop
    show SA.saStep entryZ exitZ maxH (z (i + 1)) _ = _
    rw [hv]
    exact SA.saStep_same_signal entryZ exitZ maxH v _ hsig hpos hstop
  · intro hv
    show SA.saStep entryZ exitZ maxH (z (i + 1)) _ = _
    rw [hv]
    exact SA.saStep_nan entryZ exitZ maxH _
  · intro v hv hsig hdead hstop
    show SA.saStep entryZ exitZ maxH (z (i + 1)) _ = _
    rw [hv]
    exact SA.saStep_dead_zone entryZ exitZ maxH v _ hsig hdead hstop
  · intro v m hv hm hpos hheld
    show SA.saStep entryZ exitZ maxH (z (i + 1)) _ = _
    rw [hv]
    exact SA.saStep_time_stop entryZ exitZ maxH v _ m hm hpos hheld

/-- Witness for C5: a concrete bar on which the short-entry signal recurs and
the counter increments. -/
theorem C5_holding_counter_witness :
    ((fun _ : ℕ => some (3 : ℝ)) 1 = some 3 ∧
      SA.sigOfZ 2 0 3 = (SA.saStates 2 0 none (fun _ => some (3 : ℝ)) 0).1 ∧
      (SA.saStates 2 0 none (fun _ => some (3 : ℝ)) 0).1 ≠ 0) ∧
    SA.saStates 2 0 none (fun _ => some (3 : ℝ)) 1 =
      ((SA.saStates 2 0 none (fun _ => some (3 : ℝ)) 0).1,
        (SA.saStates 2 0 none (fun _ => some (3 : ℝ)) 0).2 + 1) := by
  have habs3 : |(3 : ℝ)| = 3 := abs_of_pos (by norm_num)
  have hsig3 : SA.sigOfZ 2 0 (3 : ℝ) = -1 := by
    unfold SA.sigOfZ
    rw [if_neg (by rw [habs3]; push_cast; norm_num), if_pos (by push_cast; norm_num)]
  have h0 : SA.saStates 2 0 none (fun _ => some (3 : ℝ)) 0 = (-1, 0) := by
    show SA.saStep 2 0 none (some 3) (0, 0) = (-1, 0)
    unfold SA.saStep
    dsimp only
    rw [hsig3, if_neg (by norm_num), if_neg (by norm_num), if_pos rfl,
      if_pos (by norm_num)]
  refine ⟨⟨rfl, by rw [h0, hsig3], by rw [h0]; norm_num⟩, ?_⟩
  exact (C5_holding_counter 2 0 none (fun _ => some (3 : ℝ)) 0).2.1 3 rfl
    (by rw [h0, hsig3]) (by rw [h0]; norm_num)
    (fun m hm => Option.noConfusion hm)

/-! ### Claim C4: cost monotonicity of trend following -/

theorem logRet_defined (xs : List ℚ) (i : ℕ) (h1 : 1 ≤ i) (h2 : i < xs.length)
    (hpos : ∀ p ∈ xs, 0 < p) : (logRet xs i).isSome = true := by
  have hi0 : i ≠ 0 := by omega
  have ha : ∃ a, xs.get? i = some a := by
    rw [List.get?_eq_get h2]
    exact ⟨_, rfl⟩
  have hb : ∃ b, xs.get? (i - 1) = some b := by
    rw [List.get?_eq_get (show i - 1 < xs.length by omega)]
    exact ⟨_, rfl⟩
  obtain ⟨a, ha⟩ := ha
  obtain ⟨b, hb⟩ := hb
  have hapos : 0 < a := hpos a (List.get?_mem ha)
  have hbpos : 0 < b := hpos b (List.get?_mem hb)
  unfold logRet
  rw [if_neg hi0, ha, hb]
  dsimp only
  rw [if_pos (div_pos hapos hbpos)]
  rfl

end TWS

namespace TWS.TF

theorem stratRet_isSome (c : ℚ) (avgKind : String) (short lng : ℕ) (allowShort : Bool)
    (xs : List ℚ) (i : ℕ) :
    (stratRet c avgKind short lng allowShort xs i).isSome = (logRet xs i).isSome := by
  unfold stratRet
  simp

theorem stratRet_getD_sub (c : ℚ) (avgKind : String) (short lng : ℕ) (allowShort : Bool)
    (xs : List ℚ) (j : ℕ) :
    (stratRet c avgKind short lng allowShort xs j).getD 0 =
      (stratRet 0 avgKind short lng allowShort xs j).getD 0 -
        (c : ℝ) * (if (logRet xs j).isSome = true ∧
            chg avgKind short lng allowShort xs j = true then 1 else 0) := by
  cases hj : logRet xs j with
  | none =>
    simp [stratRet, hj]
  | some r =>
    cases hchg : chg avgKind short lng allowShort xs j <;>
      simp [stratRet, hj, costs, hchg] <;> push_cast <;> ring

theorem nansum_stratRet_sub (c : ℚ) (avgKind : String) (short lng : ℕ) (allowShort : Bool)
    (xs : List ℚ) (n : ℕ) :
    nansumTo (stratRet c avgKind short lng allowShort xs) n =
      nansumTo (stratRet 0 avgKind short lng allowShort xs) n -
        (c : ℝ) * ∑ j in Finset.range (n + 1),
          (if (logRet xs j).isSome = true ∧
              chg avgKind short lng allowShort xs j = true then (1 : ℝ) else 0) := by
  unfold nansumTo
  rw [Finset.mul_sum, ← Finset.sum_sub_distrib]
  exact Finset.sum_congr rfl (fun j _ => stratRet_getD_sub c avgKind short lng allowShort xs j)

theorem equityCurve_at (c : ℚ) (avgKind : String) (short lng : ℕ) (allowShort : Bool)
    (xs : List ℚ) (i : ℕ) (hi : (logRet xs i).isSome = true) :
    equityCurve c avgKind short lng allowShort xs i =
      some (Real.exp (nansumTo (stratRet c avgKind short lng allowShort xs) i)) := by
  unfold equityCurve cumsumOpt
  rw [if_pos (by rw [stratRet_isSome]; exact hi)]
  rfl

theorem totalRet_at (c : ℚ) (avgKind : String) (short lng : ℕ) (allowShort : Bool)
    (xs : List ℚ) (hn : 2 ≤ xs.length) (hpos : ∀ p ∈ xs, 0 < p) :
    totalRet c avgKind short lng allowShort xs =
      some (Real.exp
        (nansumTo (stratRet c avgKind short lng allowShort xs) (xs.length - 1)) - 1) := by
  have hlast : (logRet xs (xs.length - 1)).isSome = true :=
    logRet_defined xs (xs.length - 1) (by omega) (by omega) hpos
  unfold totalRet totalReturn
  rw [if_pos (show notnaAny (stratRet c avgKind short lng allowShort xs) xs.length from
    ⟨xs.length - 1, by omega, by rw [stratRet_isSome]; exact hlast⟩)]
  rw [equityCurve_at c avgKind short lng allowShort xs _ hlast]
  rfl

end TWS.TF

namespace TWS

/-- C4: for `trend_following_cross` on a fixed series of positive prices (at
least two bars) and a fixed configuration apart from the cost parameter — so
signals and positions are identical in both runs — the total strategy return
with `cost_per_trade = c > 0` is never greater than the total strategy return
with `cost_per_trade = 0`. -/
theorem C4_cost_monotonic (avgKind : String) (short lng : ℕ) (allowShort : Bool)
    (xs : List ℚ) (c : ℚ) (hc : 0 < c) (hn : 2 ≤ xs.length) (hpos : ∀ p ∈ xs, 0 < p) :
    ∃ rc r0, TF.totalRet c avgKind short lng allowShort xs = some rc ∧
      TF.totalRet 0 avgKind short lng allowShort xs = some r0 ∧ rc ≤ r0 := by
  refine ⟨_, _, TF.totalRet_at c avgKind short lng allowShort xs hn hpos,
    TF.totalRet_at 0 avgKind short lng allowShort xs hn hpos, ?_⟩
  have hT : (0 : ℝ) ≤ ∑ j in Finset.range ((xs.length - 1) + 1),
      (if (logRet xs j).isSome = true ∧
          TF.chg avgKind short lng allowShort xs j = true then (1 : ℝ) else 0) :=
    Finset.sum_nonneg (fun j _ => by split_ifs <;> norm_num)
  have hc' : (0 : ℝ) ≤ (c : ℝ) := by exact_mod_cast hc.le
  have hsum : nansumTo (TF.stratRet c avgKind short lng allowShort xs) (xs.length - 1) ≤
      nansumTo (TF.stratRet 0 avgKind short lng allowShort xs) (xs.length - 1) := by
    rw [TF.nansum_stratRet_sub]
    have := mul_nonneg hc' hT
    linarith
  have hexp := Real.exp_le_exp.mpr hsum
  linarith

/-- Witness for C4 at a concrete positive series. -/
theorem C4_cost_monotonic_witness :
    ((0 : ℚ) < 1 ∧ 2 ≤ ([1, 1] : List ℚ).length ∧ ∀ p ∈ ([1, 1] : List ℚ), 0 < p) ∧
    ∃ rc r0, TF.totalRet 1 "EMA" 1 2 false [1, 1] = some rc ∧
      TF.totalRet 0 "EMA" 1 2 false [1, 1] = some r0 ∧ rc ≤ r0 :=
  ⟨⟨by decide, by decide, by decide⟩,
    C4_cost_monotonic "EMA" 1 2 false [1, 1] 1 (by decide) (by decide) (by decide)⟩

/-! ### Claim C6: sign and zero-characterization of the maximum drawdown -/

theorem runMax_le (eq : ℕ → Option ℝ) :
    ∀ i j e, j ≤ i → eq j = some e → ∃ m, runMax eq i = some m ∧ e ≤ m := by
  intro i
  induction i with
  | zero =>
    intro j e hj he
    have hj0 : j = 0 := by omega
    subst hj0
    exact ⟨e, he, le_refl e⟩
  | succ i ih =>
    intro j e hj he
    rcases Nat.lt_or_ge j (i + 1) with hlt | hge
    · obtain ⟨m, hm, hem⟩ := ih j e (by omega) he
      unfold runMax
      rw [hm]
      cases hx : eq (i + 1) with
      | none => exact ⟨m, rfl, hem⟩
      | some x => exact ⟨max m x, rfl, le_trans hem (le_max_left m x)⟩
    · have hj1 : j = i + 1 := by omega
      subst hj1
      unfold runMax
      rw [he]
      cases hr : runMax eq i with
      | none => exact ⟨e, rfl, le_refl e⟩
      | some m2 => exact ⟨max m2 e, rfl, le_max_right m2 e⟩

theorem runMax_attained (eq : ℕ → Option ℝ) :
    ∀ i m, runMax eq i = some m → ∃ j, j ≤ i ∧ eq j = some m := by
  intro i
  induction i with
  | zero =>
    intro m hm
    exact ⟨0, le_refl 0, hm⟩
  | succ i ih =>
    intro m hm
    unfold runMax at hm
    cases hr : runMax eq i with
    | none =>
      rw [hr] at hm
      cases hx : eq (i + 1) with
      | none =>
        rw [hx] at hm
        exact Option.noConfusion hm
      | some x =>
        rw [hx] at hm
        simp only [Option.some.injEq] at hm
        exact ⟨i + 1, le_refl _, by rw [hx, hm]⟩
    | some m2 =>
      rw [hr] at hm
      cases hx : eq (i + 1) with
      | none =>
        rw [hx] at hm
        simp only [Option.some.injEq] at hm
        obtain ⟨j, hj, hje⟩ := ih m2 hr
        exact ⟨j, by omega, by rw [hje, hm]⟩
      | some x =>
        rw [hx] at hm
        simp only [Option.some.injEq] at hm
        rcases le_total m2 x with hle | hle
        · rw [max_eq_right hle] at hm
          exact ⟨i + 1, le_refl _, by rw [hx, hm]⟩
        · rw [max_eq_left hle] at hm
          obtain ⟨j, hj, hje⟩ := ih m2 hr
          exact ⟨j, by omega, by rw [hje, hm]⟩

theorem drawdown_none (eq : ℕ → Option ℝ) (i : ℕ) (he : eq i = none) :
    drawdown eq i = none := by
  unfold drawdown
  rw [he]

theorem drawdown_analysis (eq : ℕ → Option ℝ) (hpos : ∀ i e, eq i = some e → 0 < e)
    (i : ℕ) (e : ℝ) (he : eq i = some e) :
    ∃ d, drawdown eq i = some d ∧ d ≤ 0 ∧
      (d = 0 ↔ ∀ j x, j ≤ i → eq j = some x → x ≤ e) := by
  obtain ⟨r, hr, her⟩ := runMax_le eq i i e (le_refl i) he
  obtain ⟨j0, hj0, hej0⟩ := runMax_attained eq i r hr
  have hrpos : 0 < r := hpos j0 r hej0
  have hcm : cummaxOpt eq i = some r := by
    unfold cummaxOpt
    rw [if_pos (by rw [he]; rfl)]
    exact hr
  refine ⟨e / r - 1, ?_, ?_, ?_⟩
  · unfold drawdown
    rw [he, hcm]
  · have : e / r ≤ 1 := (div_le_one hrpos).mpr her
    linarith
  · constructor
    · intro hd j x hj hx
      have hx_le_r : x ≤ r := by
        obtain ⟨m2, hm2, hxm2⟩ := runMax_le eq i j x hj hx
        rw [hr] at hm2
        simp only [Option.some.injEq] at hm2
        rw [← hm2] at hxm2
        exact hxm2
      have her2 : e / r = 1 := by linarith
      have : e = r := by
        field_simp at her2
        exact her2
      linarith
    · intro hmono
      have hre : r ≤ e := hmono j0 r hj0 hej0
      have : e = r := le_antisymm her hre
      rw [this]
      field_simp

theorem minOptTo_none_all (g : ℕ → Option ℝ) :
    ∀ n, minOptTo g n = none → ∀ i, i < n → g i = none := by
  intro n
  induction n with
  | zero =>
    intro _ i hi
    omega
  | succ n ih =>
    intro hnone i hi
    unfold minOptTo at hnone
    cases hr : minOptTo g n with
    | none =>
      rw [hr] at hnone
      cases hx : g n with
      | none =>
        rcases Nat.lt_or_ge i n with h | h
        · exact ih hr i h
        · have : i = n := by omega
          rw [this, hx]
      | some x =>
        rw [hx] at hnone
        exact Option.noConfusion hnone
    | some m =>
      rw [hr] at hnone
      cases hx : g n with
      | none =>
        rw [hx] at hnone
        exact Option.noConfusion hnone
      | some x =>
        rw [hx] at hnone
        exact Option.noConfusion hnone

theorem minOptTo_spec (g : ℕ → Option ℝ) :
    ∀ n m, minOptTo g n = some m →
      (∃ i, i < n ∧ g i = some m) ∧ (∀ i x, i < n → g i = some x → m ≤ x) := by
  intro n
  induction n with
  | zero =>
    intro m hm
    exact Option.noConfusion hm
  | succ n ih =>
    intro m hm
    unfold minOptTo at hm
    cases hr : minOptTo g n with
    | none =>
      rw [hr] at hm
      cases hx : g n with
      | none =>
        rw [hx] at hm
        exact Option.noConfusion hm
      | some x =>
        rw [hx] at hm
        simp only [Option.some.injEq] at hm
        refine ⟨⟨n, by omega, by rw [hx, hm]⟩, ?_⟩
        intro i y hi hy
        rcases Nat.lt_or_ge i n with h | h
        · rw [minOptTo_none_all g n hr i h] at hy
          exact Option.noConfusion hy
        · have : i = n := by omega
          rw [this, hx] at hy
          simp only [Option.some.injEq] at hy
          rw [← hm, ← hy]
    | some m2 =>
      rw [hr] at hm
      obtain ⟨⟨i2, hi2, hgi2⟩, hlow⟩ := ih m2 hr
      cases hx : g n with
      | none =>
        rw [hx] at hm
        simp only [Option.some.injEq] at hm
        refine ⟨⟨i2, by omega, by rw [hgi2, hm]⟩, ?_⟩
        intro i y hi hy
        rcases Nat.lt_or_ge i n with h | h
        · rw [← hm]
          exact hlow i y h hy
        · have : i = n := by omega
          rw [this, hx] at hy
          exact Option.noConfusion hy
      | some x =>
        rw [hx] at hm
        simp only [Option.some.injEq] at hm
        constructor
        · rcases le_total m2 x with hle | hle
          · rw [min_eq_left hle] at hm
            exact ⟨i2, by omega, by rw [hgi2, hm]⟩
          · rw [min_eq_right hle] at hm
            exact ⟨n, by omega, by rw [hx, hm]⟩
        · intro i y hi hy
          rcases Nat.lt_or_ge i n with h | h
          · have := hlow i y h hy
            rw [← hm]
            exact le_trans (min_le_left m2 x) this
          · have : i = n := by omega
            rw [this, hx] at hy
            simp only [Option.some.injEq] at hy
            rw [← hm, ← hy]
            exact min_le_right m2 x

theorem minOptTo_isSome_of (g : ℕ → Option ℝ) (n i : ℕ) (hi : i < n)
    (hg : (g i).isSome = true) : (minOptTo g n).isSome = true := by
  cases h : minOptTo g n with
  | none =>
    rw [minOptTo_none_all g n h i hi] at hg
    exact Bool.noConfusion hg
  | some m => rfl

/-- The common metrics argument: when some strategy return is defined, the
`MaxDrawdown` metric is defined, non-positive, and zero exactly when the
defined equity entries are non-decreasing in time. -/
theorem maxDrawdown_spec (sret eq : ℕ → Option ℝ) (n : ℕ)
    (hiff : ∀ i, (eq i).isSome = (sret i).isSome)
    (hpos : ∀ i e, eq i = some e → 0 < e)
    (hna : notnaAny sret n) :
    ∃ m, maxDrawdown sret eq n = some m ∧ m ≤ 0 ∧
      (m = 0 ↔ ∀ i j a b, i ≤ j → j < n →
        eq i = some a → eq j = some b → a ≤ b) := by
  obtain ⟨i0, hi0, hs0⟩ := hna
  have heq0 : (eq i0).isSome = true := by rw [hiff i0]; exact hs0
  obtain ⟨e0, he0⟩ := Option.isSome_iff_exists.mp heq0
  obtain ⟨d0, hd0, _, _⟩ := drawdown_analysis eq hpos i0 e0 he0
  have hdd0 : (drawdown eq i0).isSome = true := by rw [hd0]; rfl
  have hmin : (minOptTo (drawdown eq) n).isSome = true :=
    minOptTo_isSome_of (drawdown eq) n i0 hi0 hdd0
  obtain ⟨m, hm⟩ := Option.isSome_iff_exists.mp hmin
  have hmdd : maxDrawdown sret eq n = some m := by
    unfold maxDrawdown
    rw [if_pos ⟨i0, hi0, hs0⟩]
    exact hm
  obtain ⟨⟨i1, hi1, hdi1⟩, hlow⟩ := minOptTo_spec (drawdown eq) n m hm
  have hei1 : ∃ e1, eq i1 = some e1 := by
    cases he1 : eq i1 with
    | none =>
      rw [drawdown_none eq i1 he1] at hdi1
      exact Option.noConfusion hdi1
    | some e1 => exact ⟨e1, rfl⟩
  obtain ⟨e1, he1⟩ := hei1
  obtain ⟨d1, hd1, hd1le, hd1iff⟩ := drawdown_analysis eq hpos i1 e1 he1
  have hmd1 : m = d1 := by
    rw [hdi1] at hd1
    exact Option.some.inj hd1
  refine ⟨m, hmdd, by rw [hmd1]; exact hd1le, ?_, ?_⟩
  · intro hm0 i j a b hij hjn hia hjb
    obtain ⟨dj, hdj, hdjle, hdjiff⟩ := drawdown_analysis eq hpos j b hjb
    have hmle : m ≤ dj := hlow j dj hjn hdj
    rw [hm0] at hmle
    have hdj0 : dj = 0 := by linarith
    exact hdjiff.mp hdj0 i a hij hia
  · intro hmono
    rw [hmd1]
    apply hd1iff.mpr
    intro j x hj hx
    exact hmono j i1 x e1 hj hi1 hx he1

theorem cumsumOpt_isSome (f : ℕ → Option ℝ) (i : ℕ) :
    (cumsumOpt f i).isSome = (f i).isSome := by
  cases h : (f i).isSome <;> simp [cumsumOpt, h]

end TWS

namespace TWS.TF

theorem tfEquity_isSome (c : ℚ) (avgKind : String) (short lng : ℕ) (allowShort : Bool)
    (xs : List ℚ) (i : ℕ) :
    (equityCurve c avgKind short lng allowShort xs i).isSome =
      (stratRet c avgKind short lng allowShort xs i).isSome := by
  simp [equityCurve, cumsumOpt_isSome]

theorem tfEquity_pos (c : ℚ) (avgKind : String) (short lng : ℕ) (allowShort : Bool)
    (xs : List ℚ) : ∀ i e, equityCurve c avgKind short lng allowShort xs i = some e →
      0 < e := by
  intro i e he
  unfold equityCurve at he
  obtain ⟨x, hx, hfx⟩ := Option.map_eq_some'.mp he
  rw [← hfx]
  exact Real.exp_pos x

end TWS.TF

namespace TWS.SA

theorem saEquity_isSome (cpl entryZ exitZ : ℚ) (maxH : Option ℕ) (w : ℕ)
    (ps : List (ℚ × ℚ)) (i : ℕ) :
    (equityCurve cpl entryZ exitZ maxH w ps i).isSome =
      (stratRet cpl entryZ exitZ maxH w ps i).isSome := by
  simp [equityCurve, cumsumOpt_isSome]

theorem saEquity_pos (cpl entryZ exitZ : ℚ) (maxH : Option ℕ) (w : ℕ)
    (ps : List (ℚ × ℚ)) : ∀ i e, equityCurve cpl entryZ exitZ maxH w ps i = some e →
      0 < e := by
  intro i e he
  unfold equityCurve at he
  obtain ⟨x, hx, hfx⟩ := Option.map_eq_some'.mp he
  rw [← hfx]
  exact Real.exp_pos x

theorem stratRet_isSome_of (cpl entryZ exitZ : ℚ) (maxH : Option ℕ) (w : ℕ)
    (ps : List (ℚ × ℚ)) (i : ℕ)
    (hy : (retY ps i).isSome = true) (hx : (retX ps i).isSome = true)
    (hb : (betaLag w ps i).isSome = true) :
    (stratRet cpl entryZ exitZ maxH w ps i).isSome = true := by
  obtain ⟨ry, hry⟩ := Option.isSome_iff_exists.mp hy
  obtain ⟨rx, hrx⟩ := Option.isSome_iff_exists.mp hx
  obtain ⟨b, hbv⟩ := Option.isSome_iff_exists.mp hb
  unfold stratRet
  rw [hry, hrx, hbv]
  rfl

end TWS.SA

namespace TWS

/-- C6: for every input series on which `trend_following_cross` and
`statistical_arbitrage_pairs` compute a non-empty (not-all-`NaN`) strategy
return series, the `MaxDrawdown` metric (the minimum over time of equity
divided by running-maximum equity, minus 1) is defined, always `≤ 0`, and
equals `0` if and only if the (defined entries of the) equity curve are
non-decreasing. -/
theorem C6_max_drawdown (c : ℚ) (avgKind : String) (short lng : ℕ) (allowShort : Bool)
    (xs : List ℚ) (cpl entryZ exitZ : ℚ) (maxH : Option ℕ) (w : ℕ) (ps : List (ℚ × ℚ))
    (hTF : notnaAny (TF.stratRet c avgKind short lng allowShort xs) xs.length)
    (hSA : notnaAny (SA.stratRet cpl entryZ exitZ maxH w ps) ps.length) :
    (∃ m, TF.mdd c avgKind short lng allowShort xs = some m ∧ m ≤ 0 ∧
      (m = 0 ↔ ∀ i j a b, i ≤ j → j < xs.length →
        TF.equityCurve c avgKind short lng allowShort xs i = some a →
        TF.equityCurve c avgKind short lng allowShort xs j = some b → a ≤ b)) ∧
    (∃ m, SA.mdd cpl entryZ exitZ maxH w ps = some m ∧ m ≤ 0 ∧
      (m = 0 ↔ ∀ i j a b, i ≤ j → j < ps.length →
        SA.equityCurve cpl entryZ exitZ maxH w ps i = some a →
        SA.equityCurve cpl entryZ exitZ maxH w ps j = some b → a ≤ b)) := by
  constructor
  · unfold TF.mdd
    exact maxDrawdown_spec _ _ xs.length
      (fun i => TF.tfEquity_isSome c avgKind short lng allowShort xs i)
      (TF.tfEquity_pos c avgKind short lng allowShort xs) hTF
  · unfold SA.mdd
    exact maxDrawdown_spec _ _ ps.length
      (fun i => SA.saEquity_isSome cpl entryZ exitZ maxH w ps i)
      (SA.saEquity_pos cpl entryZ exitZ maxH w ps) hSA

/-- Witness for C6 at concrete series with a non-empty return series. -/
theorem C6_max_drawdown_witness :
    (notnaAny (TF.stratRet 0 "EMA" 1 2 false [1, 1]) ([1, 1] : List ℚ).length ∧
      notnaAny (SA.stratRet 0 2 0 none 1 [((1 : ℚ), (1 : ℚ)), (1, 1), (1, 1)])
        ([((1 : ℚ), (1 : ℚ)), (1, 1), (1, 1)] : List (ℚ × ℚ)).length) ∧
    ((∃ m, TF.mdd 0 "EMA" 1 2 false [1, 1] = some m ∧ m ≤ 0 ∧
      (m = 0 ↔ ∀ i j a b, i ≤ j → j < ([1, 1] : List ℚ).length →
        TF.equityCurve 0 "EMA" 1 2 false [1, 1] i = some a →
        TF.equityCurve 0 "EMA" 1 2 false [1, 1] j = some b → a ≤ b)) ∧
    (∃ m, SA.mdd 0 2 0 none 1 [((1 : ℚ), (1 : ℚ)), (1, 1), (1, 1)] = some m ∧ m ≤ 0 ∧
      (m = 0 ↔ ∀ i j a b, i ≤ j →
        j < ([((1 : ℚ), (1 : ℚ)), (1, 1), (1, 1)] : List (ℚ × ℚ)).length →
        SA.equityCurve 0 2 0 none 1 [((1 : ℚ), (1 : ℚ)), (1, 1), (1, 1)] i = some a →
        SA.equityCurve 0 2 0 none 1 [((1 : ℚ), (1 : ℚ)), (1, 1), (1, 1)] j = some b →
        a ≤ b))) := by
  have hTF : notnaAny (TF.stratRet 0 "EMA" 1 2 false [1, 1]) ([1, 1] : List ℚ).length :=
    ⟨1, by decide, by
      rw [TF.stratRet_isSome]
      exact logRet_defined [1, 1] 1 (by omega) (by decide) (by decide)⟩
  have hSA : notnaAny (SA.stratRet 0 2 0 none 1 [((1 : ℚ), (1 : ℚ)), (1, 1), (1, 1)])
      ([((1 : ℚ), (1 : ℚ)), (1, 1), (1, 1)] : List (ℚ × ℚ)).length :=
    ⟨2, by decide, by
      apply SA.stratRet_isSome_of
      · show (logRet ([((1 : ℚ), (1 : ℚ)), (1, 1), (1, 1)].map Prod.fst) 2).isSome = true
        exact logRet_defined _ 2 (by omega) (by decide) (by decide)
      · show (logRet ([((1 : ℚ), (1 : ℚ)), (1, 1), (1, 1)].map Prod.snd) 2).isSome = true
        exact logRet_defined _ 2 (by omega) (by decide) (by decide)
      · simp [SA.betaLag, SA.betaCol]⟩
  exact ⟨⟨hTF, hSA⟩,
    C6_max_drawdown 0 "EMA" 1 2 false [1, 1] 0 2 0 none 1
      [((1 : ℚ), (1 : ℚ)), (1, 1), (1, 1)] hTF hSA⟩

end TWS
